import Mathlib

set_option maxRecDepth 100000
set_option maxHeartbeats 2000000

/-!
Verification of the Minesweeper rules engine from `src/raylib c template/main.c`.

The source is a raylib Minesweeper on a fixed 9x9 board with 10 mines.  The
file contains two copies of the same program (an original and a restyled one
with identical game logic); we embed the shared logic:

* `InitializeBoard`, `PlaceMines`, `CountNearbyMines` - board setup;
* the left-click reveal handling from `main` / `HandleMouseInput`
  (here `revealStep`), including the recursive cascade `RevealEmpty`
  and `RevealAllMines` on a mine click;
* the right-click flag toggle (here `flagStep`);
* the per-frame win check (`CheckWin` / the inlined loop in `main`).

Rendering, audio and the raylib plumbing are out of scope (per the spec);
the played-once sound booleans are audio-cue state and are not modelled.

The cascade `RevealEmpty` recurses on the C call stack.  We embed it with a
fuel parameter in structural recursion (`RevealEmptyGo`): each nesting level
of the C recursion is entered right after a previously-unrevealed cell is
revealed, so the recursion depth is bounded by the number of cells (81) and
a fuel of 82 is never exhausted; `RevealEmptyGo_fuel_independent` below
proves the result is fuel-independent past the number of unrevealed cells,
which is exactly the termination argument of the C code.

`PlaceMines` draws `rand()` values in a rejection loop.  We model the random
source as a list of naturals consumed two at a time (`r = rand() % 9`,
`c = rand() % 9`).  If the list is exhausted before 10 mines are placed the
model stops (the C loop would keep drawing); theorems about placement either
hypothesise that the loop finished (`placed = 10`) or prove that it finishes
whenever the stream covers the unmined cells.
-/

namespace Minesweeper

/-- One grid cell, mirroring the C `Cell` struct. -/
@[ext] structure Cell where
  revealed : Bool
  hasMine : Bool
  flagged : Bool
  nearbyMines : Nat
deriving DecidableEq, Repr

/-- A board position: row and column, both below 9 (`ROWS = COLS = 9`). -/
abbrev Pos : Type := Fin 9 × Fin 9

/-- The board, `Cell board[ROWS][COLS]`, as a function from positions. -/
abbrev Board : Type := Pos → Cell

/-- Functional update of a single cell, modelling `board[r][c].field = v`. -/
def updateCell (b : Board) (p : Pos) (f : Cell → Cell) : Board :=
  fun q => if q = p then f (b q) else b q

@[simp] theorem updateCell_self (b : Board) (p : Pos) (f : Cell → Cell) :
    updateCell b p f p = f (b p) := by
  simp [updateCell]

theorem updateCell_of_ne (b : Board) (p q : Pos) (f : Cell → Cell) (h : q ≠ p) :
    updateCell b p f q = b q := by
  simp [updateCell, h]

/-- The in-bounds test on C `int` coordinates:
`r >= 0 && r < ROWS && c >= 0 && c < COLS`. -/
abbrev inBoundsI (r c : Int) : Prop := 0 ≤ r ∧ r < 9 ∧ 0 ≤ c ∧ c < 9

/-- The position denoted by in-bounds `int` coordinates. -/
def posOfI (r c : Int) (h : inBoundsI r c) : Pos :=
  (⟨r.toNat, by omega⟩, ⟨c.toNat, by omega⟩)

@[simp] theorem posOfI_fst (r c : Int) (h : inBoundsI r c) :
    ((posOfI r c h).1.val : Int) = r := by
  simp only [posOfI]
  omega

@[simp] theorem posOfI_snd (r c : Int) (h : inBoundsI r c) :
    ((posOfI r c h).2.val : Int) = c := by
  simp only [posOfI]
  omega

theorem pos_inBounds (p : Pos) : inBoundsI (p.1.val : Int) (p.2.val : Int) := by
  have h1 := p.1.isLt
  have h2 := p.2.isLt
  omega

theorem pos_eq_iff (p q : Pos) :
    p = q ↔ (p.1.val : Int) = (q.1.val : Int) ∧ (p.2.val : Int) = (q.2.val : Int) := by
  rw [Prod.ext_iff, Fin.ext_iff, Fin.ext_iff]
  omega

theorem posOfI_eq_iff (r c : Int) (h : inBoundsI r c) (q : Pos) :
    posOfI r c h = q ↔ (q.1.val : Int) = r ∧ (q.2.val : Int) = c := by
  rw [pos_eq_iff]
  constructor
  · rintro ⟨h1, h2⟩; rw [← h1, ← h2]; simp
  · rintro ⟨h1, h2⟩; simp [h1, h2]

/-- The 3x3 neighbourhood offsets, in the C iteration order
(`dr` outer from -1 to 1, `dc` inner from -1 to 1; the centre `(0,0)` is
included, exactly as in the C loops). -/
def offsets : List (Int × Int) :=
  [(-1, -1), (-1, 0), (-1, 1), (0, -1), (0, 0), (0, 1), (1, -1), (1, 0), (1, 1)]

theorem mem_offsets (d : Int × Int) :
    d ∈ offsets ↔ d.1.natAbs ≤ 1 ∧ d.2.natAbs ≤ 1 := by
  obtain ⟨a, b⟩ := d
  simp only [offsets, List.mem_cons, List.not_mem_nil, or_false, Prod.mk.injEq]
  omega

/-- Chebyshev adjacency on positions (distance at most 1 in each axis;
includes the cell itself, matching the 3x3 loops of the C code). -/
abbrev near (p q : Pos) : Prop :=
  ((q.1.val : Int) - (p.1.val : Int)).natAbs ≤ 1 ∧
  ((q.2.val : Int) - (p.2.val : Int)).natAbs ≤ 1

/-- All 81 positions in row-major order, as the C double loops visit them. -/
def allPositions : List Pos :=
  (List.finRange 9).flatMap fun r => (List.finRange 9).map fun c => (r, c)

theorem mem_allPositions (p : Pos) : p ∈ allPositions := by
  obtain ⟨r, c⟩ := p
  simp only [allPositions, List.mem_flatMap, List.mem_map]
  exact ⟨r, List.mem_finRange r, c, List.mem_finRange c, rfl⟩

theorem allPositions_nodup : allPositions.Nodup := by decide

/-! ## Board setup (`InitializeBoard`, `PlaceMines`, `CountNearbyMines`) -/

/-- `InitializeBoard`: every cell is reset to
`{revealed:false, hasMine:false, flagged:false, nearbyMines:0}`.
The C loop writes every cell exactly once, so the result is this constant
board. -/
def InitializeBoard : Board :=
  fun _ => { revealed := false, hasMine := false, flagged := false, nearbyMines := 0 }

/-- One `rand() % 9` pair interpreted as a position, as `PlaceMines` does. -/
def randPos (r c : Nat) : Pos :=
  (⟨r % 9, Nat.mod_lt r (by omega)⟩, ⟨c % 9, Nat.mod_lt c (by omega)⟩)

/-- `PlaceMines`: the rejection-sampling loop
`while (placed < MINES) { r = rand()%ROWS; c = rand()%COLS; if (!mine) place; }`.
The random source is a list of `rand()` values consumed two at a time.  The
model stops when the stream runs out (the C loop would keep drawing; see the
termination theorem for claim C9).  Returns the board and the final value of
`placed`. -/
def PlaceMinesAux : List Nat → Board → Nat → Board × Nat
  | [], b, placed => (b, placed)
  | [_], b, placed => (b, placed)
  | r :: c :: rest, b, placed =>
    if placed < 10 then
      if (b (randPos r c)).hasMine = true then
        PlaceMinesAux rest b placed
      else
        PlaceMinesAux rest (updateCell b (randPos r c) fun cl => { cl with hasMine := true })
          (placed + 1)
    else (b, placed)

/-- The board produced by `PlaceMines` (first component of the loop state). -/
def PlaceMines (b : Board) (rands : List Nat) : Board :=
  (PlaceMinesAux rands b 0).1

/-- The positions a random stream will try, in order (for the termination
theorem of claim C9). -/
def pairCells : List Nat → List Pos
  | [] => []
  | [_] => []
  | r :: c :: rest => randPos r c :: pairCells rest

/-- In-bounds-and-mined test on `int` coordinates: the C condition
`nr >= 0 && nr < ROWS && nc >= 0 && nc < COLS && board[nr][nc].hasMine`. -/
def mineAtI (b : Board) (r c : Int) : Bool :=
  if h : inBoundsI r c then (b (posOfI r c h)).hasMine else false

/-- The inner double loop of `CountNearbyMines`: the number of in-bounds
mined cells in the 3x3 block around `(row, col)` (the centre is iterated
too, exactly as in C; it contributes only if it is itself mined). -/
def CountNearbyAt (b : Board) (row col : Int) : Nat :=
  offsets.foldl (fun cnt d => if mineAtI b (row + d.1) (col + d.2) = true then cnt + 1 else cnt) 0

/-- `CountNearbyMines`: for every cell in row-major order, skip it if mined,
otherwise store the 3x3 mined-neighbour count into `nearbyMines`. -/
def CountNearbyMines (b : Board) : Board :=
  allPositions.foldl
    (fun bd p =>
      if (bd p).hasMine = true then bd
      else updateCell bd p fun cl =>
        { cl with nearbyMines := CountNearbyAt bd (p.1.val : Int) (p.2.val : Int) })
    b

/-- The full per-game setup in `main`:
`InitializeBoard; PlaceMines; CountNearbyMines`. -/
def NewGame (rands : List Nat) : Board :=
  CountNearbyMines (PlaceMines InitializeBoard rands)

/-! ## Reveal operations (`RevealEmpty`, `RevealAllMines`) -/

/-- The body of one iteration of the 3x3 loop in `RevealEmpty`, for offset
`d`: bounds-check `(row+dr, col+dc)`; if the neighbour is unrevealed and not
mined, reveal it (note: the C code does NOT check `flagged` here) and, if its
count is zero, expand it recursively via `expand`. -/
def RevealEmptyCellStep (expand : Board → Int → Int → Board) (row col : Int)
    (b : Board) (d : Int × Int) : Board :=
  if h : inBoundsI (row + d.1) (col + d.2) then
    let p := posOfI (row + d.1) (col + d.2) h
    if (b p).revealed = false ∧ (b p).hasMine = false then
      let b1 := updateCell b p fun cl => { cl with revealed := true }
      if (b1 p).nearbyMines = 0 then expand b1 (row + d.1) (col + d.2) else b1
    else b
  else b

/-- `RevealEmpty` with explicit fuel and an explicit neighbour visitation
order `ds` (the C code uses `offsets`; the order is a parameter so that
confluence of the cascade can be stated).  Each C stack frame iterates the
offsets in order; a recursive call burns one unit of fuel.  Since every
recursive call is made right after revealing a previously-unrevealed cell,
the C recursion never nests deeper than 82 frames on an 81-cell board, and
`RevealEmptyGo_fuel_independent` shows any fuel beyond the number of
unrevealed cells gives the same result. -/
def RevealEmptyGo (ds : List (Int × Int)) : Nat → Board → Int → Int → Board
  | 0, b, _, _ => b
  | fuel + 1, b, row, col =>
    ds.foldl (RevealEmptyCellStep (RevealEmptyGo ds fuel) row col) b

/-- `RevealEmpty(board, row, col)`: the recursive cascade of the C code,
with the C visitation order and enough fuel to never run out. -/
def RevealEmpty (b : Board) (row col : Int) : Board :=
  RevealEmptyGo offsets 82 b row col

/-- `RevealAllMines`: set `revealed = true` on every mined cell (flags and
non-mine cells untouched), in row-major order. -/
def RevealAllMines (b : Board) : Board :=
  allPositions.foldl
    (fun bd p =>
      if (bd p).hasMine = true then updateCell bd p fun cl => { cl with revealed := true }
      else bd)
    b

/-! ## Game state, per-frame input handling, win check -/

/-- The number of revealed non-mine cells, as counted by the win-check loop
(`revealedCount` in the C code). -/
def revealedCount (b : Board) : Nat :=
  allPositions.countP fun p => (b p).revealed && !(b p).hasMine

/-- `CheckWin`: `revealedCount == ROWS * COLS - MINES`. -/
def CheckWin (b : Board) : Bool :=
  revealedCount b == 9 * 9 - 10

/-- The mutable state of `main`: the board plus the `gameOver` and `win`
booleans.  (The played-once sound booleans are audio plumbing and out of
scope.) -/
@[ext] structure GameState where
  board : Board
  gameOver : Bool
  win : Bool

/-- One frame's worth of input: the mouse cell `(row, col)` (both buttons
share the same mouse position in the C code) and which buttons were
pressed. -/
structure Input where
  pos : Int × Int
  left : Bool
  right : Bool

/-- The left-click handling in `main` lines 74-103 (without the surrounding
`!gameOver && !win` guard): bounds check, then if the cell is neither
flagged nor revealed, reveal it; on a mine set `gameOver` and reveal all
mines, otherwise cascade if the count is zero. -/
def revealStep (s : GameState) (row col : Int) : GameState :=
  if h : inBoundsI row col then
    let p := posOfI row col h
    if (s.board p).flagged = false ∧ (s.board p).revealed = false then
      let b1 := updateCell s.board p fun cl => { cl with revealed := true }
      if (b1 p).hasMine = true then
        { s with board := RevealAllMines b1, gameOver := true }
      else if (b1 p).nearbyMines = 0 then
        { s with board := RevealEmpty b1 row col }
      else
        { s with board := b1 }
    else s
  else s

/-- The right-click handling in `main` lines 105-110: bounds check, and if
the cell is unrevealed, toggle its flag. -/
def flagStep (s : GameState) (row col : Int) : GameState :=
  if h : inBoundsI row col then
    let p := posOfI row col h
    if (s.board p).revealed = false then
      { s with board := updateCell s.board p fun cl => { cl with flagged := !cl.flagged } }
    else s
  else s

/-- The win-check code in `main` lines 112-127 (it runs unconditionally at
the end of the input block, even in the frame that just set `gameOver`). -/
def winStep (s : GameState) : GameState :=
  if CheckWin s.board = true then { s with win := true } else s

/-- One iteration of the input block of the main loop: if the game has
ended nothing happens; otherwise the left click, then the right click (at
the same mouse cell), then the win check. -/
def frame (s : GameState) (i : Input) : GameState :=
  if s.gameOver || s.win then s
  else
    let s1 := if i.left then revealStep s i.pos.1 i.pos.2 else s
    let s2 := if i.right then flagStep s1 i.pos.1 i.pos.2 else s1
    winStep s2

/-- The spec's `Reveal(row, col)` command: the left-click handling together
with its enclosing phase guard (`main` lines 67-103). -/
def Reveal (s : GameState) (row col : Int) : GameState :=
  if s.gameOver || s.win then s else revealStep s row col

/-- The spec's `ToggleFlag(row, col)` command: the right-click handling
together with its enclosing phase guard. -/
def ToggleFlag (s : GameState) (row col : Int) : GameState :=
  if s.gameOver || s.win then s else flagStep s row col

/-- The spec's game phases.  The C code has no explicit `Setup` state (setup
runs to completion before the loop starts); `Lost`/`Won` are read off the
two booleans with the priority the C rendering uses (`gameOver` first). -/
inductive GamePhase where
  | Setup
  | Playing
  | Won
  | Lost
deriving DecidableEq

/-- The phase of a state, as the C code observes it. -/
def phase (s : GameState) : GamePhase :=
  if s.gameOver then .Lost else if s.win then .Won else .Playing

/-- The state at the start of a game, for a given random stream. -/
def initialState (rands : List Nat) : GameState :=
  { board := NewGame rands, gameOver := false, win := false }

/-- A state is reachable if some game setup followed by some sequence of
frames produces it. -/
def Reachable (s : GameState) : Prop :=
  ∃ (rands : List Nat) (inputs : List Input),
    s = List.foldl frame (initialState rands) inputs

/-! ## Derived counting notions -/

/-- The number of mined cells (spec-side notion; the C code never counts
mines at runtime). -/
def mineCount (b : Board) : Nat :=
  (Finset.univ.filter fun p : Pos => (b p).hasMine = true).card

/-- The number of unrevealed cells: the termination measure of the cascade. -/
def unrevealedCount (b : Board) : Nat :=
  (Finset.univ.filter fun p : Pos => (b p).revealed = false).card

/-- A cell is "zero-safe" when it is not mined and shows a zero count: the
cells through which the cascade propagates. -/
abbrev zeroCell (b : Board) (p : Pos) : Prop :=
  (b p).hasMine = false ∧ (b p).nearbyMines = 0

/-- The spec's flood-fill region: `q` is reachable from `p` through a chain
of adjacent cells all of whose intermediate elements (including the start)
are zero-safe.  The final revealed set of a cascade seeded at a zero-safe
`p` is exactly the non-mine cells in this relation (the connected zero
region plus its bordering ring). -/
def cascadeReach (b : Board) (p q : Pos) : Prop :=
  Relation.ReflTransGen (fun u v => zeroCell b u ∧ near u v) p q

/-- Zero-closure: every revealed zero-safe cell has all its non-mine
neighbours revealed.  This holds in every reachable state and is what makes
the cascade produce exactly the spec's region. -/
def zeroClosed (b : Board) : Prop :=
  ∀ z q : Pos, (b z).revealed = true → zeroCell b z → near z q →
    (b q).hasMine = false → (b q).revealed = true

instance (b : Board) : Decidable (zeroClosed b) := by
  unfold zeroClosed
  infer_instance

/-! ## The `Extends` relation: safe reveals only

All boards produced while handling a safe click differ from the original
only by turning `revealed` from `false` to `true` on non-mined cells. -/

/-- `b'` extends `b` by revealing some previously-unrevealed non-mine
cells; every other field of every cell is unchanged. -/
def Extends (b b' : Board) : Prop :=
  ∀ q, b' q = b q ∨
    (b' q = { b q with revealed := true } ∧ (b q).revealed = false ∧ (b q).hasMine = false)

theorem Extends.refl (b : Board) : Extends b b := fun _ => Or.inl rfl

theorem Extends.trans {a b c : Board} (h1 : Extends a b) (h2 : Extends b c) : Extends a c := by
  intro q
  rcases h2 q with h2q | ⟨h2q, hrev, hmine⟩
  · rw [h2q]; exact h1 q
  · rcases h1 q with h1q | ⟨h1q, hrev1, hmine1⟩
    · rw [h1q] at h2q hrev hmine
      exact Or.inr ⟨h2q, hrev, hmine⟩
    · rw [h1q] at hrev
      simp at hrev

theorem Extends.hasMine_eq {b b' : Board} (h : Extends b b') (q : Pos) :
    (b' q).hasMine = (b q).hasMine := by
  rcases h q with hq | ⟨hq, _, _⟩ <;> rw [hq]

theorem Extends.flagged_eq {b b' : Board} (h : Extends b b') (q : Pos) :
    (b' q).flagged = (b q).flagged := by
  rcases h q with hq | ⟨hq, _, _⟩ <;> rw [hq]

theorem Extends.nearbyMines_eq {b b' : Board} (h : Extends b b') (q : Pos) :
    (b' q).nearbyMines = (b q).nearbyMines := by
  rcases h q with hq | ⟨hq, _, _⟩ <;> rw [hq]

theorem Extends.revealed_mono {b b' : Board} (h : Extends b b') (q : Pos)
    (hq : (b q).revealed = true) : (b' q).revealed = true := by
  rcases h q with heq | ⟨heq, hrev, _⟩
  · rw [heq]; exact hq
  · rw [hrev] at hq; cases hq

theorem Extends.mine_revealed_eq {b b' : Board} (h : Extends b b') (q : Pos)
    (hq : (b q).hasMine = true) : (b' q).revealed = (b q).revealed := by
  rcases h q with heq | ⟨_, _, hmine⟩
  · rw [heq]
  · rw [hq] at hmine; cases hmine

theorem Extends.revealed_cases {b b' : Board} (h : Extends b b') (q : Pos)
    (hq : (b' q).revealed = true) :
    (b q).revealed = true ∨ ((b q).revealed = false ∧ (b q).hasMine = false) := by
  rcases h q with heq | ⟨_, hrev, hmine⟩
  · rw [heq] at hq; exact Or.inl hq
  · exact Or.inr ⟨hrev, hmine⟩

theorem Extends.zeroCell_iff {b b' : Board} (h : Extends b b') (q : Pos) :
    zeroCell b' q ↔ zeroCell b q := by
  unfold zeroCell
  rw [h.hasMine_eq q, h.nearbyMines_eq q]

theorem Extends.cascadeReach_iff {b b' : Board} (h : Extends b b') (p q : Pos) :
    cascadeReach b' p q ↔ cascadeReach b p q := by
  unfold cascadeReach
  constructor
  · exact Relation.ReflTransGen.mono fun u v hv => ⟨(h.zeroCell_iff u).mp hv.1, hv.2⟩
  · exact Relation.ReflTransGen.mono fun u v hv => ⟨(h.zeroCell_iff u).mpr hv.1, hv.2⟩

theorem Extends.unrevealedCount_le {b b' : Board} (h : Extends b b') :
    unrevealedCount b' ≤ unrevealedCount b := by
  apply Finset.card_le_card
  intro q hq
  simp only [Finset.mem_filter, Finset.mem_univ, true_and] at hq ⊢
  by_contra hb
  have : (b q).revealed = true := by
    cases hrev : (b q).revealed
    · exact absurd hrev hb
    · rfl
  have := h.revealed_mono q this
  rw [hq] at this
  cases this

theorem extends_updateCell_reveal (b : Board) (p : Pos)
    (hrev : (b p).revealed = false) (hmine : (b p).hasMine = false) :
    Extends b (updateCell b p fun cl => { cl with revealed := true }) := by
  intro q
  by_cases hq : q = p
  · subst hq
    exact Or.inr ⟨by simp [updateCell], hrev, hmine⟩
  · exact Or.inl (updateCell_of_ne _ _ _ _ hq)

theorem unrevealedCount_updateCell_reveal (b : Board) (p : Pos)
    (hrev : (b p).revealed = false) :
    unrevealedCount (updateCell b p fun cl => { cl with revealed := true })
      = unrevealedCount b - 1 := by
  unfold unrevealedCount
  have hset :
      (Finset.univ.filter fun q : Pos =>
          ((updateCell b p fun cl => { cl with revealed := true }) q).revealed = false)
        = (Finset.univ.filter fun q : Pos => (b q).revealed = false).erase p := by
    ext q
    by_cases hq : q = p
    · subst hq
      simp [updateCell]
    · simp [updateCell_of_ne _ _ _ _ hq, Finset.mem_erase, hq]
  rw [hset, Finset.card_erase_of_mem]
  simp [hrev]

theorem unrevealedCount_pos_of_unrevealed (b : Board) (p : Pos)
    (hrev : (b p).revealed = false) : 1 ≤ unrevealedCount b := by
  have hmem : p ∈ Finset.univ.filter fun q : Pos => (b q).revealed = false := by simp [hrev]
  have hpos := Finset.card_pos.mpr ⟨p, hmem⟩
  unfold unrevealedCount
  omega

theorem unrevealedCount_le_81 (b : Board) : unrevealedCount b ≤ 81 := by
  have h := Finset.card_filter_le (Finset.univ : Finset Pos)
    (fun q : Pos => (b q).revealed = false)
  simpa using h

/-! ## Characterizations of the setup and loss loops -/

theorem foldl_extends {α : Type} {f : Board → α → Board}
    (hf : ∀ b a, Extends b (f b a)) :
    ∀ (l : List α) (b : Board), Extends b (l.foldl f b) := by
  intro l
  induction l with
  | nil => intro b; exact Extends.refl b
  | cons d rest ih =>
    intro b
    exact (hf b d).trans (ih (f b d))

/-- `RevealAllMines` pointwise: mined cells get `revealed := true`, all
other cells are untouched. -/
theorem RevealAllMines_spec (b : Board) (q : Pos) :
    RevealAllMines b q = if (b q).hasMine = true then { b q with revealed := true } else b q := by
  have key : ∀ (l : List Pos) (bd : Board),
      (l.foldl
        (fun bd p =>
          if (bd p).hasMine = true then updateCell bd p fun cl => { cl with revealed := true }
          else bd) bd) q
        = if q ∈ l ∧ (bd q).hasMine = true then { bd q with revealed := true } else bd q := by
    intro l
    induction l with
    | nil => intro bd; simp
    | cons p rest ih =>
      intro bd
      rw [List.foldl_cons, ih]
      by_cases hq : q = p
      · subst hq
        by_cases hm : (bd q).hasMine = true
        · simp only [hm, if_pos, List.mem_cons, true_or, true_and, updateCell_self]
          by_cases hr : q ∈ rest <;> simp [hr, hm]
        · have hm' : (bd q).hasMine = false := by
            cases h : (bd q).hasMine
            · rfl
            · exact absurd h hm
          simp [hm, hm']
      · have hstep :
            (if (bd p).hasMine = true then updateCell bd p fun cl => { cl with revealed := true }
             else bd) q = bd q := by
          by_cases hm : (bd p).hasMine = true
          · simp [hm, updateCell_of_ne _ _ _ _ hq]
          · simp [hm]
        rw [hstep]
        simp only [List.mem_cons]
        by_cases hr : q ∈ rest <;> simp [hr, hq]
  have := key allPositions b
  rw [RevealAllMines, this]
  simp [mem_allPositions q]

theorem countNearbyAt_congr {b b' : Board}
    (h : ∀ q, (b' q).hasMine = (b q).hasMine) (row col : Int) :
    CountNearbyAt b' row col = CountNearbyAt b row col := by
  unfold CountNearbyAt
  apply List.foldl_ext
  intro cnt d _
  have : mineAtI b' (row + d.1) (col + d.2) = mineAtI b (row + d.1) (col + d.2) := by
    unfold mineAtI
    split
    · rw [h]
    · rfl
  rw [this]

/-- `CountNearbyMines` pointwise: every non-mined cell gets the 3x3 count
computed from the (unchanged) mine layout; mined cells are untouched. -/
theorem CountNearbyMines_spec (b : Board) (q : Pos) :
    CountNearbyMines b q =
      if (b q).hasMine = true then b q
      else { b q with nearbyMines := CountNearbyAt b (q.1.val : Int) (q.2.val : Int) } := by
  have key : ∀ (l : List Pos) (bd : Board), (∀ x, (bd x).hasMine = (b x).hasMine) →
      (l.foldl
        (fun bd p =>
          if (bd p).hasMine = true then bd
          else updateCell bd p fun cl =>
            { cl with nearbyMines := CountNearbyAt bd (p.1.val : Int) (p.2.val : Int) }) bd) q
        = if q ∈ l ∧ (bd q).hasMine = false
            then { bd q with nearbyMines := CountNearbyAt b (q.1.val : Int) (q.2.val : Int) }
            else bd q := by
    intro l
    induction l with
    | nil => intro bd _; simp
    | cons p rest ih =>
      intro bd hlay
      have hcnt : ∀ r c : Int, CountNearbyAt bd r c = CountNearbyAt b r c := fun r c =>
        countNearbyAt_congr hlay r c
      set step := fun (bd : Board) (p : Pos) =>
        if (bd p).hasMine = true then bd
        else updateCell bd p fun cl =>
          { cl with nearbyMines := CountNearbyAt bd (p.1.val : Int) (p.2.val : Int) } with hstepdef
      have hlaystep : ∀ x, ((step bd p) x).hasMine = (b x).hasMine := by
        intro x
        rw [hstepdef]
        simp only
        split
        · exact hlay x
        · by_cases hx : x = p
          · subst hx; rw [updateCell_self]; exact hlay x
          · rw [updateCell_of_ne _ _ _ _ hx]; exact hlay x
      rw [List.foldl_cons, ih (step bd p) hlaystep]
      have hstepq : (step bd p) q = if q = p ∧ (bd p).hasMine = false
          then { bd q with nearbyMines := CountNearbyAt b (q.1.val : Int) (q.2.val : Int) }
          else bd q := by
        rw [hstepdef]
        simp only
        by_cases hm : (bd p).hasMine = true
        · have : ¬ (bd p).hasMine = false := by rw [hm]; simp
          simp [hm, this]
        · have hm' : (bd p).hasMine = false := by
            cases h : (bd p).hasMine
            · rfl
            · exact absurd h hm
          by_cases hq : q = p
          · subst hq
            simp [hm, hm', hcnt]
          · simp [hm, hm', hq, updateCell_of_ne _ _ _ _ hq]
      have hsqm : ((step bd p) q).hasMine = (bd q).hasMine := by
        rw [hlaystep q, hlay q]
      rw [hsqm, hstepq]
      simp only [List.mem_cons]
      by_cases hq : q = p
      · subst hq
        by_cases hm : (bd q).hasMine = false
        · by_cases hr : q ∈ rest <;> simp [hr, hm]
        · simp [hm]
      · by_cases hr : q ∈ rest <;> simp [hr, hq]
  have := key allPositions b (fun _ => rfl)
  rw [CountNearbyMines, this]
  cases h : (b q).hasMine <;> simp [h, mem_allPositions q]

/-! ## The cascade only performs safe reveals -/

theorem RevealEmptyCellStep_extends {expand : Board → Int → Int → Board}
    (hexp : ∀ b r c, Extends b (expand b r c)) (row col : Int) (b : Board) (d : Int × Int) :
    Extends b (RevealEmptyCellStep expand row col b d) := by
  unfold RevealEmptyCellStep
  split
  · next h =>
    simp only
    split
    · next hg =>
      have hx := extends_updateCell_reveal b (posOfI (row + d.1) (col + d.2) h) hg.1 hg.2
      split
      · exact hx.trans (hexp _ _ _)
      · exact hx
    · exact Extends.refl b
  · exact Extends.refl b

theorem RevealEmptyGo_extends (ds : List (Int × Int)) :
    ∀ (fuel : Nat) (b : Board) (row col : Int), Extends b (RevealEmptyGo ds fuel b row col) := by
  intro fuel
  induction fuel with
  | zero => intro b row col; exact Extends.refl b
  | succ fuel ih =>
    intro b row col
    exact foldl_extends (fun b d => RevealEmptyCellStep_extends (fun b r c => ih b r c) row col b d) ds b

/-! ## Fuel independence: the termination argument of the C recursion

Every recursive call of `RevealEmpty` is made right after revealing a
previously-unrevealed cell, so the number of unrevealed cells strictly
decreases with the nesting depth: any fuel exceeding that number yields the
same result as any other. -/

theorem RevealEmptyGo_fuel_independent (ds : List (Int × Int)) :
    ∀ (f1 f2 : Nat) (b : Board) (row col : Int),
      unrevealedCount b < f1 → unrevealedCount b < f2 →
      RevealEmptyGo ds f1 b row col = RevealEmptyGo ds f2 b row col := by
  intro f1
  induction f1 with
  | zero => intro f2 b row col h1 _; omega
  | succ fuel1 ih =>
    intro f2 b row col h1 h2
    match f2 with
    | 0 => omega
    | fuel2 + 1 =>
      show ds.foldl (RevealEmptyCellStep (RevealEmptyGo ds fuel1) row col) b
          = ds.foldl (RevealEmptyCellStep (RevealEmptyGo ds fuel2) row col) b
      have inner : ∀ (l : List (Int × Int)) (bc : Board),
          unrevealedCount bc ≤ unrevealedCount b →
          l.foldl (RevealEmptyCellStep (RevealEmptyGo ds fuel1) row col) bc
            = l.foldl (RevealEmptyCellStep (RevealEmptyGo ds fuel2) row col) bc := by
        intro l
        induction l with
        | nil => intro bc _; rfl
        | cons d rest ihl =>
          intro bc hbc
          have hstep : RevealEmptyCellStep (RevealEmptyGo ds fuel1) row col bc d
              = RevealEmptyCellStep (RevealEmptyGo ds fuel2) row col bc d := by
            unfold RevealEmptyCellStep
            split
            · next h =>
              simp only
              split
              · next hg =>
                split
                · next hz =>
                  apply ih fuel2
                  · rw [unrevealedCount_updateCell_reveal bc _ hg.1]
                    have := unrevealedCount_pos_of_unrevealed bc _ hg.1
                    omega
                  · rw [unrevealedCount_updateCell_reveal bc _ hg.1]
                    have := unrevealedCount_pos_of_unrevealed bc _ hg.1
                    omega
                · rfl
              · rfl
            · rfl
          rw [List.foldl_cons, List.foldl_cons, hstep]
          apply ihl
          have hext : Extends bc (RevealEmptyCellStep (RevealEmptyGo ds fuel2) row col bc d) :=
            RevealEmptyCellStep_extends (fun b r c => RevealEmptyGo_extends ds fuel2 b r c) row col bc d
          exact le_trans hext.unrevealedCount_le hbc
      exact inner ds b (le_refl _)

/-- Any fuel beyond 81 (the cell count) gives the cascade's limit value:
the C recursion terminates and `RevealEmpty`'s fuel of 82 is enough. -/
theorem RevealEmpty_eq_go_of_large_fuel (f : Nat) (b : Board) (row col : Int) (hf : 81 < f) :
    RevealEmptyGo offsets f b row col = RevealEmpty b row col := by
  unfold RevealEmpty
  have h := unrevealedCount_le_81 b
  exact RevealEmptyGo_fuel_independent offsets f 82 b row col (by omega) (by omega)

/-! ## Soundness of the cascade

Every cell the cascade reveals lies in the spec's region: it is non-mined
and reachable from the seed through a chain of zero-safe cells. -/

theorem near_of_offset (p0 q : Pos) (row col : Int) (d : Int × Int)
    (hd : d ∈ offsets) (h1 : (p0.1.val : Int) = row) (h2 : (p0.2.val : Int) = col)
    (hq1 : (q.1.val : Int) = row + d.1) (hq2 : (q.2.val : Int) = col + d.2) :
    near p0 q := by
  rw [mem_offsets] at hd
  constructor <;> omega

theorem RevealEmptyGo_sound (ds : List (Int × Int)) (hds : ∀ d ∈ ds, d ∈ offsets) :
    ∀ (fuel : Nat) (b : Board) (row col : Int) (p0 : Pos),
      (p0.1.val : Int) = row → (p0.2.val : Int) = col → zeroCell b p0 →
      ∀ q, ((RevealEmptyGo ds fuel b row col) q).revealed = true →
        (b q).revealed = true ∨ ((b q).hasMine = false ∧ cascadeReach b p0 q) := by
  intro fuel
  induction fuel with
  | zero => intro b row col p0 _ _ _ q hq; exact Or.inl hq
  | succ fuel ih =>
    intro b row col p0 h1 h2 hz0
    have inner : ∀ (l : List (Int × Int)), (∀ d ∈ l, d ∈ offsets) → ∀ (bc : Board),
        Extends b bc →
        (∀ q, (bc q).revealed = true →
          (b q).revealed = true ∨ ((b q).hasMine = false ∧ cascadeReach b p0 q)) →
        ∀ q, ((l.foldl (RevealEmptyCellStep (RevealEmptyGo ds fuel) row col) bc) q).revealed = true →
          (b q).revealed = true ∨ ((b q).hasMine = false ∧ cascadeReach b p0 q) := by
      intro l
      induction l with
      | nil => intro _ bc _ hinv q hq; exact hinv q hq
      | cons d rest ihl =>
        intro hl bc hext hinv
        have hd : d ∈ offsets := hl d (List.mem_cons_self d rest)
        have hrest : ∀ d' ∈ rest, d' ∈ offsets := fun d' hd' => hl d' (List.mem_cons_of_mem d hd')
        rw [List.foldl_cons]
        -- Analyse the single step.
        unfold RevealEmptyCellStep
        split
        · next hbnd =>
          simp only
          split
          · next hg =>
            set p1 := posOfI (row + d.1) (col + d.2) hbnd with hp1
            set b1 := updateCell bc p1 fun cl => { cl with revealed := true } with hb1
            have hext1 : Extends bc b1 := extends_updateCell_reveal bc p1 hg.1 hg.2
            have hmine1 : (b p1).hasMine = false := by
              have := hext.hasMine_eq p1
              rw [← this]; exact hg.2
            have hreach1 : cascadeReach b p0 p1 :=
              Relation.ReflTransGen.single
                ⟨hz0, near_of_offset p0 p1 row col d hd h1 h2 (by simp [hp1]) (by simp [hp1])⟩
            have hinv1 : ∀ q, (b1 q).revealed = true →
                (b q).revealed = true ∨ ((b q).hasMine = false ∧ cascadeReach b p0 q) := by
              intro q hq
              by_cases hqp : q = p1
              · subst hqp
                exact Or.inr ⟨hmine1, hreach1⟩
              · rw [hb1, updateCell_of_ne _ _ _ _ hqp] at hq
                exact hinv q hq
            split
            · next hzero =>
              -- recursive expansion of the freshly revealed zero cell
              have hz1 : zeroCell b1 p1 := by
                constructor
                · rw [hb1, updateCell_self]
                  exact hg.2
                · rw [hb1] at hzero ⊢
                  exact hzero
              have hsound := ih b1 (row + d.1) (col + d.2) p1 (by simp [hp1]) (by simp [hp1]) hz1
              have hextb1 : Extends b b1 := hext.trans hext1
              apply ihl hrest _ (hextb1.trans (RevealEmptyGo_extends ds fuel b1 _ _))
              intro q hq
              rcases hsound q hq with hq' | ⟨hm', hr'⟩
              · exact hinv1 q hq'
              · refine Or.inr ⟨by rw [← hextb1.hasMine_eq q]; exact hm', ?_⟩
                have hr'' : cascadeReach b p1 q := (hextb1.cascadeReach_iff p1 q).mp hr'
                exact Relation.ReflTransGen.trans hreach1 hr''
            · exact ihl hrest b1 (hext.trans hext1) hinv1
          · exact ihl hrest bc hext hinv
        · exact ihl hrest bc hext hinv
    exact inner ds hds b (Extends.refl b) (fun q hq => Or.inl hq)

/-! ## Completeness of the cascade: the closure invariant

After `RevealEmpty` finishes, every revealed zero-safe cell has all its
non-mine neighbours revealed, except for obligations explicitly excused by
`E` (the pending iterations of enclosing stack frames) or still pending in
the current frame's remaining offsets.  Instantiating `E` with `False`
yields `zeroClosed` of the final board. -/

theorem RevealEmptyGo_closed (ds : List (Int × Int)) (hds : ∀ d : Int × Int, d ∈ ds ↔ d ∈ offsets) :
    ∀ (fuel : Nat) (b : Board) (row col : Int) (E : Pos → Pos → Prop),
      unrevealedCount b < fuel →
      (∀ z q, (b z).revealed = true → zeroCell b z → near z q → (b q).hasMine = false →
        ((b q).revealed = true ∨ E z q ∨
          ((z.1.val : Int) = row ∧ (z.2.val : Int) = col ∧
           ∃ d ∈ ds, (q.1.val : Int) = row + d.1 ∧ (q.2.val : Int) = col + d.2))) →
      ∀ z q, ((RevealEmptyGo ds fuel b row col) z).revealed = true → zeroCell b z →
        near z q → (b q).hasMine = false →
        (((RevealEmptyGo ds fuel b row col) q).revealed = true ∨ E z q) := by
  intro fuel
  induction fuel with
  | zero => intro b row col E hcnt _; omega
  | succ fuel ih =>
    intro b row col E hcnt hpre
    have inner : ∀ (rem : List (Int × Int)) (bc : Board),
        Extends b bc →
        unrevealedCount bc ≤ unrevealedCount b →
        (∀ z q, (bc z).revealed = true → zeroCell b z → near z q → (b q).hasMine = false →
          ((bc q).revealed = true ∨ E z q ∨
            ((z.1.val : Int) = row ∧ (z.2.val : Int) = col ∧
             ∃ d ∈ rem, (q.1.val : Int) = row + d.1 ∧ (q.2.val : Int) = col + d.2))) →
        ∀ z q,
          ((rem.foldl (RevealEmptyCellStep (RevealEmptyGo ds fuel) row col) bc) z).revealed = true →
          zeroCell b z → near z q → (b q).hasMine = false →
          (((rem.foldl (RevealEmptyCellStep (RevealEmptyGo ds fuel) row col) bc) q).revealed = true
            ∨ E z q) := by
      intro rem
      induction rem with
      | nil =>
        intro bc _ _ hprec z q hz hzc hn hm
        rcases hprec z q hz hzc hn hm with h | h | ⟨_, _, _, hd, _⟩
        · exact Or.inl h
        · exact Or.inr h
        · simp at hd
      | cons d rest ihl =>
        intro bc hext hcount hprec
        rw [List.foldl_cons]
        unfold RevealEmptyCellStep
        split
        · next hbnd =>
          simp only
          split
          · next hg =>
            set p1 := posOfI (row + d.1) (col + d.2) hbnd with hp1
            set b1 := updateCell bc p1 fun cl => { cl with revealed := true } with hb1
            have hext1 : Extends bc b1 := extends_updateCell_reveal bc p1 hg.1 hg.2
            have hextb1 : Extends b b1 := hext.trans hext1
            have hcnt1 : unrevealedCount b1 = unrevealedCount bc - 1 :=
              unrevealedCount_updateCell_reveal bc p1 hg.1
            have hposc : 1 ≤ unrevealedCount bc := unrevealedCount_pos_of_unrevealed bc p1 hg.1
            have hb1p1rev : (b1 p1).revealed = true := by rw [hb1, updateCell_self]
            have hnearby1 : (b1 p1).nearbyMines = (bc p1).nearbyMines := by
              rw [hb1, updateCell_self]
            split
            · next hzero =>
              -- the revealed cell is zero-safe: expand it with the inner frame
              have hpre1 : ∀ z q, (b1 z).revealed = true → zeroCell b1 z → near z q →
                  (b1 q).hasMine = false →
                  ((b1 q).revealed = true ∨
                    (E z q ∨ ((z.1.val : Int) = row ∧ (z.2.val : Int) = col ∧
                      ∃ d' ∈ rest, (q.1.val : Int) = row + d'.1 ∧ (q.2.val : Int) = col + d'.2)) ∨
                    ((z.1.val : Int) = row + d.1 ∧ (z.2.val : Int) = col + d.2 ∧
                      ∃ d' ∈ ds, (q.1.val : Int) = (row + d.1) + d'.1 ∧
                        (q.2.val : Int) = (col + d.2) + d'.2)) := by
                intro z q hz hzc hn hm
                by_cases hzp : z = p1
                · subst hzp
                  have e1 : ((p1.1.val : Int)) = row + d.1 := by simp [hp1]
                  have e2 : ((p1.2.val : Int)) = col + d.2 := by simp [hp1]
                  obtain ⟨hn1, hn2⟩ := hn
                  refine Or.inr (Or.inr ⟨e1, e2, ?_⟩)
                  refine ⟨((q.1.val : Int) - (row + d.1), (q.2.val : Int) - (col + d.2)), ?_, ?_, ?_⟩
                  · rw [hds, mem_offsets]
                    constructor
                    · show ((q.1.val : Int) - (row + d.1)).natAbs ≤ 1
                      omega
                    · show ((q.2.val : Int) - (col + d.2)).natAbs ≤ 1
                      omega
                  · show (q.1.val : Int) = (row + d.1) + ((q.1.val : Int) - (row + d.1))
                    omega
                  · show (q.2.val : Int) = (col + d.2) + ((q.2.val : Int) - (col + d.2))
                    omega
                · have hzbc : (bc z).revealed = true := by
                    rw [hb1, updateCell_of_ne _ _ _ _ hzp] at hz
                    exact hz
                  have hzcb : zeroCell b z := (hextb1.zeroCell_iff z).mp hzc
                  have hmb : (b q).hasMine = false := by
                    rw [← hextb1.hasMine_eq q]; exact hm
                  rcases hprec z q hzbc hzcb hn hmb with h | h | ⟨hz1, hz2, d'', hd'', hq1, hq2⟩
                  · exact Or.inl (hext1.revealed_mono q h)
                  · exact Or.inr (Or.inl (Or.inl h))
                  · rcases List.mem_cons.mp hd'' with rfl | hd''rest
                    · have : q = p1 := by
                        rw [hp1, Eq.comm, posOfI_eq_iff]
                        exact ⟨hq1, hq2⟩
                      subst this
                      exact Or.inl hb1p1rev
                    · exact Or.inr (Or.inl (Or.inr ⟨hz1, hz2, d'', hd''rest, hq1, hq2⟩))
              have hpost := ih b1 (row + d.1) (col + d.2)
                (fun z q => E z q ∨ ((z.1.val : Int) = row ∧ (z.2.val : Int) = col ∧
                  ∃ d' ∈ rest, (q.1.val : Int) = row + d'.1 ∧ (q.2.val : Int) = col + d'.2))
                (by omega)
                (by
                  intro z q hz hzc hn hm
                  exact hpre1 z q hz hzc hn hm)
              set F := RevealEmptyGo ds fuel b1 (row + d.1) (col + d.2) with hF
              have hextF : Extends b F := hextb1.trans (RevealEmptyGo_extends ds fuel b1 _ _)
              have hcountF : unrevealedCount F ≤ unrevealedCount b := by
                have hgo := (RevealEmptyGo_extends ds fuel b1 (row + d.1) (col + d.2)).unrevealedCount_le
                rw [← hF] at hgo
                have hle := hextb1.unrevealedCount_le
                omega
              apply ihl F hextF hcountF
              intro z q hz hzc hn hm
              have hzcb1 : zeroCell b1 z := (hextb1.zeroCell_iff z).mpr hzc
              have hmb1 : (b1 q).hasMine = false := by
                rw [hextb1.hasMine_eq q]; exact hm
              rcases hpost z q hz hzcb1 hn hmb1 with h | h | ⟨hz1, hz2, hdd⟩
              · exact Or.inl h
              · exact Or.inr (Or.inl h)
              · exact Or.inr (Or.inr ⟨hz1, hz2, hdd⟩)
            · next hzero =>
              -- revealed a non-zero cell: no new obligations
              apply ihl b1 hextb1 (by omega)
              intro z q hz hzc hn hm
              by_cases hzp : z = p1
              · subst hzp
                obtain ⟨_, hzn⟩ := hzc
                rw [← hext.nearbyMines_eq p1, ← hnearby1] at hzn
                exact absurd hzn hzero
              · have hzbc : (bc z).revealed = true := by
                  rw [hb1, updateCell_of_ne _ _ _ _ hzp] at hz
                  exact hz
                rcases hprec z q hzbc hzc hn hm with h | h | ⟨hz1, hz2, d'', hd'', hq1, hq2⟩
                · exact Or.inl (hext1.revealed_mono q h)
                · exact Or.inr (Or.inl h)
                · rcases List.mem_cons.mp hd'' with rfl | hd''rest
                  · have : q = p1 := by
                      rw [hp1, Eq.comm, posOfI_eq_iff]
                      exact ⟨hq1, hq2⟩
                    subst this
                    exact Or.inl hb1p1rev
                  · exact Or.inr (Or.inr ⟨hz1, hz2, d'', hd''rest, hq1, hq2⟩)
          · next hg =>
            -- cell already revealed or mined: skip
            apply ihl bc hext hcount
            intro z q hz hzc hn hm
            rcases hprec z q hz hzc hn hm with h | h | ⟨hz1, hz2, d'', hd'', hq1, hq2⟩
            · exact Or.inl h
            · exact Or.inr (Or.inl h)
            · rcases List.mem_cons.mp hd'' with heq | hd''rest
              · rw [heq] at hq1 hq2
                have hqp : q = posOfI (row + d.1) (col + d.2) hbnd := by
                  rw [Eq.comm, posOfI_eq_iff]
                  exact ⟨hq1, hq2⟩
                subst hqp
                rcases hrev : (bc (posOfI (row + d.1) (col + d.2) hbnd)).revealed with _ | _
                · rcases hmine : (bc (posOfI (row + d.1) (col + d.2) hbnd)).hasMine with _ | _
                  · exact absurd ⟨hrev, hmine⟩ hg
                  · rw [← hext.hasMine_eq _, hmine] at hm
                    cases hm
                · exact Or.inl rfl
              · exact Or.inr (Or.inr ⟨hz1, hz2, d'', hd''rest, hq1, hq2⟩)
        · next hbnd =>
          -- out of bounds: the pending neighbour does not exist
          apply ihl bc hext hcount
          intro z q hz hzc hn hm
          rcases hprec z q hz hzc hn hm with h | h | ⟨hz1, hz2, d'', hd'', hq1, hq2⟩
          · exact Or.inl h
          · exact Or.inr (Or.inl h)
          · rcases List.mem_cons.mp hd'' with rfl | hd''rest
            · have := pos_inBounds q
              rw [hq1, hq2] at this
              exact absurd this hbnd
            · exact Or.inr (Or.inr ⟨hz1, hz2, d'', hd''rest, hq1, hq2⟩)
    exact inner ds b (Extends.refl b) (le_refl _) hpre

/-- In a zero-closed board, every non-mine cell reachable from a revealed
zero-safe seed through the spec's region relation is revealed. -/
theorem reach_revealed (b F : Board)
    (hlayM : ∀ q, (F q).hasMine = (b q).hasMine)
    (hlayN : ∀ q, (F q).nearbyMines = (b q).nearbyMines)
    (hcl : zeroClosed F) (p0 : Pos) (h0 : (F p0).revealed = true) :
    ∀ q, cascadeReach b p0 q → (b q).hasMine = false → (F q).revealed = true := by
  intro q hreach
  induction hreach with
  | refl => intro _; exact h0
  | @tail u v hchain hstep ihc =>
    intro hm
    obtain ⟨hzu, hnear⟩ := hstep
    have hu : (F u).revealed = true := ihc hzu.1
    exact hcl u v hu ⟨by rw [hlayM]; exact hzu.1, by rw [hlayN]; exact hzu.2⟩ hnear
      (by rw [hlayM]; exact hm)

/-- The heart of claim C1, at board level: revealing an unrevealed,
non-mined, zero-count cell of a zero-closed board and running the cascade
(in any neighbour order made of the 3x3 offsets) reveals exactly the
previously revealed cells together with the spec's region-plus-ring, and the
result is zero-closed again. -/
theorem cascade_exact (b : Board) (row col : Int) (hbnd : inBoundsI row col)
    (hrev : (b (posOfI row col hbnd)).revealed = false)
    (hm : (b (posOfI row col hbnd)).hasMine = false)
    (hz : (b (posOfI row col hbnd)).nearbyMines = 0)
    (hcl : zeroClosed b)
    (ds : List (Int × Int)) (hds : ∀ d : Int × Int, d ∈ ds ↔ d ∈ offsets) :
    (∀ q,
      ((RevealEmptyGo ds 82
          (updateCell b (posOfI row col hbnd) fun cl => { cl with revealed := true })
          row col) q).revealed = true ↔
        ((b q).revealed = true ∨
          ((b q).hasMine = false ∧ cascadeReach b (posOfI row col hbnd) q))) ∧
    zeroClosed (RevealEmptyGo ds 82
        (updateCell b (posOfI row col hbnd) fun cl => { cl with revealed := true }) row col) ∧
    Extends b (RevealEmptyGo ds 82
        (updateCell b (posOfI row col hbnd) fun cl => { cl with revealed := true }) row col) := by
  set p0 := posOfI row col hbnd with hp0
  set b1 := updateCell b p0 fun cl => { cl with revealed := true } with hb1
  set F := RevealEmptyGo ds 82 b1 row col with hF
  have hext1 : Extends b b1 := extends_updateCell_reveal b p0 hrev hm
  have hextF1 : Extends b1 F := RevealEmptyGo_extends ds 82 b1 row col
  have hextF : Extends b F := hext1.trans hextF1
  have hb1p0 : b1 p0 = { b p0 with revealed := true } := by rw [hb1, updateCell_self]
  have hz1 : zeroCell b1 p0 := by
    constructor
    · rw [hb1p0]; exact hm
    · rw [hb1p0]; exact hz
  have hrevp0 : (F p0).revealed = true :=
    hextF1.revealed_mono p0 (by rw [hb1p0])
  -- zero-closure of the final board, via the closure invariant with no excuses
  have hclosedF : zeroClosed F := by
    have hpre : ∀ z q, (b1 z).revealed = true → zeroCell b1 z → near z q →
        (b1 q).hasMine = false →
        ((b1 q).revealed = true ∨ (fun _ _ => False) z q ∨
          ((z.1.val : Int) = row ∧ (z.2.val : Int) = col ∧
           ∃ d ∈ ds, (q.1.val : Int) = row + d.1 ∧ (q.2.val : Int) = col + d.2)) := by
      intro z q hzr hzc hn hmq
      by_cases hzp : z = p0
      · subst hzp
        obtain ⟨hn1, hn2⟩ := hn
        have e1 : ((p0.1.val : Int)) = row := by rw [hp0]; simp
        have e2 : ((p0.2.val : Int)) = col := by rw [hp0]; simp
        refine Or.inr (Or.inr ⟨e1, e2, ?_⟩)
        refine ⟨((q.1.val : Int) - row, (q.2.val : Int) - col), ?_, ?_, ?_⟩
        · rw [hds, mem_offsets]
          constructor
          · show ((q.1.val : Int) - row).natAbs ≤ 1
            omega
          · show ((q.2.val : Int) - col).natAbs ≤ 1
            omega
        · show (q.1.val : Int) = row + ((q.1.val : Int) - row)
          omega
        · show (q.2.val : Int) = col + ((q.2.val : Int) - col)
          omega
      · have hzb : (b z).revealed = true := by
          rw [hb1, updateCell_of_ne _ _ _ _ hzp] at hzr
          exact hzr
        have hzcb : zeroCell b z := (hext1.zeroCell_iff z).mp hzc
        have hmb : (b q).hasMine = false := by rw [← hext1.hasMine_eq q]; exact hmq
        exact Or.inl (hext1.revealed_mono q (hcl z q hzb hzcb hn hmb))
    have hcnt : unrevealedCount b1 < 82 := by
      have := unrevealedCount_le_81 b1
      omega
    have hpost := RevealEmptyGo_closed ds hds 82 b1 row col (fun _ _ => False) hcnt hpre
    intro z q hzr hzc hn hmq
    have hzc1 : zeroCell b1 z := by
      constructor
      · rw [← hextF1.hasMine_eq z]; exact hzc.1
      · rw [← hextF1.nearbyMines_eq z]; exact hzc.2
    have hmq1 : (b1 q).hasMine = false := by rw [← hextF1.hasMine_eq q]; exact hmq
    rcases hpost z q hzr hzc1 hn hmq1 with h | h
    · exact h
    · cases h
  refine ⟨?_, hclosedF, hextF⟩
  intro q
  constructor
  · -- soundness
    intro hq
    have hsound := RevealEmptyGo_sound ds (fun d hd => (hds d).mp hd) 82 b1 row col p0
      (by rw [hp0]; simp) (by rw [hp0]; simp) hz1 q hq
    rcases hsound with hq1 | ⟨hm1, hr1⟩
    · by_cases hqp : q = p0
      · subst hqp
        exact Or.inr ⟨hm, Relation.ReflTransGen.refl⟩
      · rw [hb1, updateCell_of_ne _ _ _ _ hqp] at hq1
        exact Or.inl hq1
    · refine Or.inr ⟨by rw [← hext1.hasMine_eq q]; exact hm1, ?_⟩
      exact (hext1.cascadeReach_iff p0 q).mp hr1
  · -- completeness
    rintro (hq | ⟨hmq, hr⟩)
    · exact hextF.revealed_mono q hq
    · exact reach_revealed b F (fun x => hextF.hasMine_eq x) (fun x => hextF.nearbyMines_eq x)
        hclosedF p0 hrevp0 q hr hmq

/-! ## Game-level lemmas -/

/-- `revealStep` with an explicit cascade visitation order (the C code uses
`offsets`); needed to state that the order does not matter. -/
def revealStepWith (ds : List (Int × Int)) (s : GameState) (row col : Int) : GameState :=
  if h : inBoundsI row col then
    let p := posOfI row col h
    if (s.board p).flagged = false ∧ (s.board p).revealed = false then
      let b1 := updateCell s.board p fun cl => { cl with revealed := true }
      if (b1 p).hasMine = true then
        { s with board := RevealAllMines b1, gameOver := true }
      else if (b1 p).nearbyMines = 0 then
        { s with board := RevealEmptyGo ds 82 b1 row col }
      else
        { s with board := b1 }
    else s
  else s

theorem revealStep_eq_with (s : GameState) (row col : Int) :
    revealStep s row col = revealStepWith offsets s row col := rfl

/-- `Reveal` with an explicit cascade visitation order. -/
def RevealWith (ds : List (Int × Int)) (s : GameState) (row col : Int) : GameState :=
  if s.gameOver || s.win then s else revealStepWith ds s row col

theorem Reveal_eq_with (s : GameState) (row col : Int) :
    Reveal s row col = RevealWith offsets s row col := rfl

theorem updateCell_reveal_hasMine (b : Board) (p q : Pos) :
    ((updateCell b p fun cl => { cl with revealed := true }) q).hasMine = (b q).hasMine := by
  by_cases h : q = p
  · subst h; simp
  · rw [updateCell_of_ne _ _ _ _ h]

theorem updateCell_reveal_flagged (b : Board) (p q : Pos) :
    ((updateCell b p fun cl => { cl with revealed := true }) q).flagged = (b q).flagged := by
  by_cases h : q = p
  · subst h; simp
  · rw [updateCell_of_ne _ _ _ _ h]

theorem updateCell_reveal_nearby (b : Board) (p q : Pos) :
    ((updateCell b p fun cl => { cl with revealed := true }) q).nearbyMines
      = (b q).nearbyMines := by
  by_cases h : q = p
  · subst h; simp
  · rw [updateCell_of_ne _ _ _ _ h]

theorem RevealAllMines_hasMine (b : Board) (q : Pos) :
    ((RevealAllMines b) q).hasMine = (b q).hasMine := by
  rw [RevealAllMines_spec]; split <;> rfl

theorem RevealAllMines_flagged (b : Board) (q : Pos) :
    ((RevealAllMines b) q).flagged = (b q).flagged := by
  rw [RevealAllMines_spec]; split <;> rfl

theorem RevealAllMines_nearby (b : Board) (q : Pos) :
    ((RevealAllMines b) q).nearbyMines = (b q).nearbyMines := by
  rw [RevealAllMines_spec]; split <;> rfl

theorem RevealAllMines_mine_revealed (b : Board) (q : Pos) (h : (b q).hasMine = true) :
    ((RevealAllMines b) q).revealed = true := by
  rw [RevealAllMines_spec, if_pos h]

theorem RevealAllMines_safe_revealed (b : Board) (q : Pos) (h : (b q).hasMine = false) :
    ((RevealAllMines b) q).revealed = (b q).revealed := by
  rw [RevealAllMines_spec, if_neg (by rw [h]; simp)]

theorem RevealAllMines_revealed_mono (b : Board) (q : Pos) (h : (b q).revealed = true) :
    ((RevealAllMines b) q).revealed = true := by
  rw [RevealAllMines_spec]
  split
  · rfl
  · exact h

theorem revealStepWith_hasMine (ds : List (Int × Int)) (s : GameState) (row col : Int) (q : Pos) :
    ((revealStepWith ds s row col).board q).hasMine = (s.board q).hasMine := by
  unfold revealStepWith
  split
  · simp only
    split
    · split
      · simp only
        rw [RevealAllMines_hasMine, updateCell_reveal_hasMine]
      · split
        · simp only
          rw [(RevealEmptyGo_extends ds 82 _ row col).hasMine_eq q, updateCell_reveal_hasMine]
        · simp only
          rw [updateCell_reveal_hasMine]
    · rfl
  · rfl

theorem revealStepWith_flagged (ds : List (Int × Int)) (s : GameState) (row col : Int) (q : Pos) :
    ((revealStepWith ds s row col).board q).flagged = (s.board q).flagged := by
  unfold revealStepWith
  split
  · simp only
    split
    · split
      · simp only
        rw [RevealAllMines_flagged, updateCell_reveal_flagged]
      · split
        · simp only
          rw [(RevealEmptyGo_extends ds 82 _ row col).flagged_eq q, updateCell_reveal_flagged]
        · simp only
          rw [updateCell_reveal_flagged]
    · rfl
  · rfl

theorem revealStepWith_nearby (ds : List (Int × Int)) (s : GameState) (row col : Int) (q : Pos) :
    ((revealStepWith ds s row col).board q).nearbyMines = (s.board q).nearbyMines := by
  unfold revealStepWith
  split
  · simp only
    split
    · split
      · simp only
        rw [RevealAllMines_nearby, updateCell_reveal_nearby]
      · split
        · simp only
          rw [(RevealEmptyGo_extends ds 82 _ row col).nearbyMines_eq q, updateCell_reveal_nearby]
        · simp only
          rw [updateCell_reveal_nearby]
    · rfl
  · rfl

theorem revealStepWith_revealed_mono (ds : List (Int × Int)) (s : GameState) (row col : Int)
    (q : Pos) (h : (s.board q).revealed = true) :
    ((revealStepWith ds s row col).board q).revealed = true := by
  unfold revealStepWith
  split
  · next hb =>
    simp only
    split
    · next hg =>
      have hup : ((updateCell s.board (posOfI row col hb) fun cl =>
          { cl with revealed := true }) q).revealed = true := by
        by_cases he : q = posOfI row col hb
        · subst he; simp
        · rw [updateCell_of_ne _ _ _ _ he]; exact h
      split
      · simp only
        exact RevealAllMines_revealed_mono _ q hup
      · split
        · simp only
          exact (RevealEmptyGo_extends ds 82 _ row col).revealed_mono q hup
        · exact hup
    · exact h
  · exact h

theorem revealStepWith_win (ds : List (Int × Int)) (s : GameState) (row col : Int) :
    (revealStepWith ds s row col).win = s.win := by
  unfold revealStepWith
  split
  · simp only
    split
    · split
      · rfl
      · split <;> rfl
    · rfl
  · rfl

theorem revealStepWith_gameOver_mono (ds : List (Int × Int)) (s : GameState) (row col : Int)
    (h : s.gameOver = true) : (revealStepWith ds s row col).gameOver = true := by
  unfold revealStepWith
  split
  · simp only
    split
    · split
      · rfl
      · split <;> exact h
    · exact h
  · exact h

/-- If the reveal did not end the game, the board change is a safe reveal. -/
theorem revealStepWith_extends_of_not_lost (ds : List (Int × Int)) (s : GameState)
    (row col : Int) (h : (revealStepWith ds s row col).gameOver = false) :
    Extends s.board ((revealStepWith ds s row col).board) := by
  unfold revealStepWith at h ⊢
  split
  · next hb =>
    simp only
    split
    · next hg =>
      split
      · next hm =>
        -- the mine branch sets gameOver; contradiction with h
        rw [dif_pos hb] at h
        simp only [if_pos hg] at h
        rw [if_pos hm] at h
        cases h
      · next hm =>
        have hm' : ((updateCell s.board (posOfI row col hb) fun cl =>
            { cl with revealed := true }) (posOfI row col hb)).hasMine = false := by
          cases hx : ((updateCell s.board (posOfI row col hb) fun cl =>
              { cl with revealed := true }) (posOfI row col hb)).hasMine
          · rfl
          · exact absurd hx hm
        have hmine0 : (s.board (posOfI row col hb)).hasMine = false := by
          rw [updateCell_reveal_hasMine] at hm'
          exact hm'
        have hext1 := extends_updateCell_reveal s.board (posOfI row col hb) hg.2 hmine0
        split
        · simp only
          exact hext1.trans (RevealEmptyGo_extends ds 82 _ row col)
        · exact hext1
    · exact Extends.refl _
  · exact Extends.refl _

theorem flagStep_revealed (s : GameState) (row col : Int) (q : Pos) :
    ((flagStep s row col).board q).revealed = (s.board q).revealed := by
  unfold flagStep
  split
  · next hb =>
    simp only
    split
    · simp only
      by_cases he : q = posOfI row col hb
      · subst he; simp
      · rw [updateCell_of_ne _ _ _ _ he]
    · rfl
  · rfl

theorem flagStep_hasMine (s : GameState) (row col : Int) (q : Pos) :
    ((flagStep s row col).board q).hasMine = (s.board q).hasMine := by
  unfold flagStep
  split
  · next hb =>
    simp only
    split
    · simp only
      by_cases he : q = posOfI row col hb
      · subst he; simp
      · rw [updateCell_of_ne _ _ _ _ he]
    · rfl
  · rfl

theorem flagStep_nearby (s : GameState) (row col : Int) (q : Pos) :
    ((flagStep s row col).board q).nearbyMines = (s.board q).nearbyMines := by
  unfold flagStep
  split
  · next hb =>
    simp only
    split
    · simp only
      by_cases he : q = posOfI row col hb
      · subst he; simp
      · rw [updateCell_of_ne _ _ _ _ he]
    · rfl
  · rfl

theorem flagStep_gameOver (s : GameState) (row col : Int) :
    (flagStep s row col).gameOver = s.gameOver := by
  unfold flagStep
  split
  · simp only
    split <;> rfl
  · rfl

theorem flagStep_win (s : GameState) (row col : Int) :
    (flagStep s row col).win = s.win := by
  unfold flagStep
  split
  · simp only
    split <;> rfl
  · rfl

theorem winStep_board (s : GameState) : (winStep s).board = s.board := by
  unfold winStep
  split <;> rfl

theorem winStep_gameOver (s : GameState) : (winStep s).gameOver = s.gameOver := by
  unfold winStep
  split <;> rfl

/-! ## Zero-closure is preserved by every operation -/

theorem zeroClosed_congr (b b' : Board)
    (h : ∀ q, (b' q).revealed = (b q).revealed ∧ (b' q).hasMine = (b q).hasMine ∧
      (b' q).nearbyMines = (b q).nearbyMines) (hcl : zeroClosed b) : zeroClosed b' := by
  intro z q hzr hzc hn hmq
  rw [(h q).1]
  exact hcl z q (by rw [← (h z).1]; exact hzr)
    ⟨by rw [← (h z).2.1]; exact hzc.1, by rw [← (h z).2.2]; exact hzc.2⟩ hn
    (by rw [← (h q).2.1]; exact hmq)

theorem revealStepWith_zeroClosed (ds : List (Int × Int))
    (hds : ∀ d : Int × Int, d ∈ ds ↔ d ∈ offsets) (s : GameState) (row col : Int)
    (hcl : zeroClosed s.board) : zeroClosed ((revealStepWith ds s row col).board) := by
  unfold revealStepWith
  split
  · next hb =>
    simp only
    split
    · next hg =>
      set p0 := posOfI row col hb with hp0
      set b1 := updateCell s.board p0 fun cl => { cl with revealed := true } with hb1
      split
      · next hm =>
        -- mine clicked: RevealAllMines reveals only mined (hence not zero-safe) cells
        simp only
        have hmine0 : (s.board p0).hasMine = true := by
          rw [hb1, updateCell_reveal_hasMine] at hm
          exact hm
        intro z q hzr hzc hn hmq
        have hzM : (b1 z).hasMine = false := by
          rw [← RevealAllMines_hasMine b1 z]
          exact hzc.1
        have hzMs : (s.board z).hasMine = false := by
          rw [hb1, updateCell_reveal_hasMine] at hzM
          exact hzM
        have hzp : z ≠ p0 := by
          intro he
          rw [he, hmine0] at hzMs
          cases hzMs
        have hzrs : (s.board z).revealed = true := by
          rw [RevealAllMines_safe_revealed b1 z hzM, hb1, updateCell_of_ne _ _ _ _ hzp] at hzr
          exact hzr
        have hqM : (s.board q).hasMine = false := by
          rw [RevealAllMines_hasMine, hb1, updateCell_reveal_hasMine] at hmq
          exact hmq
        have hzcs : zeroCell s.board z := by
          refine ⟨hzMs, ?_⟩
          have := hzc.2
          rw [RevealAllMines_nearby, hb1, updateCell_reveal_nearby] at this
          exact this
        have hqrs : (s.board q).revealed = true := hcl z q hzrs hzcs hn hqM
        have hqp : q ≠ p0 := by
          intro he
          rw [he, hmine0] at hqM
          cases hqM
        have hq1 : (b1 q).hasMine = false := by
          rw [hb1, updateCell_reveal_hasMine]
          exact hqM
        rw [RevealAllMines_safe_revealed b1 q hq1, hb1, updateCell_of_ne _ _ _ _ hqp]
        exact hqrs
      · next hm =>
        have hmine0 : (s.board p0).hasMine = false := by
          have hm' : (b1 p0).hasMine = false := by
            cases hx : (b1 p0).hasMine
            · rfl
            · exact absurd hx hm
          rw [hb1, updateCell_reveal_hasMine] at hm'
          exact hm'
        split
        · next hz =>
          -- zero cell: the cascade restores zero-closure
          simp only
          have hz0 : (s.board p0).nearbyMines = 0 := by
            rw [hb1, updateCell_reveal_nearby] at hz
            exact hz
          exact (cascade_exact s.board row col hb hg.2 hmine0 hz0 hcl ds hds).2.1
        · next hz =>
          -- non-zero cell: the newly revealed cell is not zero-safe
          simp only
          intro z q hzr hzc hn hmq
          by_cases hzp : z = p0
          · subst hzp
            have := hzc.2
            rw [hb1, updateCell_reveal_nearby] at this
            rw [hb1, updateCell_reveal_nearby] at hz
            exact absurd this hz
          · have hzrs : (s.board z).revealed = true := by
              rw [hb1, updateCell_of_ne _ _ _ _ hzp] at hzr
              exact hzr
            have hzcs : zeroCell s.board z := by
              refine ⟨?_, ?_⟩
              · have := hzc.1
                rw [hb1, updateCell_reveal_hasMine] at this
                exact this
              · have := hzc.2
                rw [hb1, updateCell_reveal_nearby] at this
                exact this
            have hqM : (s.board q).hasMine = false := by
              rw [hb1, updateCell_reveal_hasMine] at hmq
              exact hmq
            have hqrs := hcl z q hzrs hzcs hn hqM
            by_cases hqp : q = p0
            · subst hqp
              rw [hb1, updateCell_self]
            · rw [hb1, updateCell_of_ne _ _ _ _ hqp]
              exact hqrs
    · exact hcl
  · exact hcl

theorem flagStep_zeroClosed (s : GameState) (row col : Int) (hcl : zeroClosed s.board) :
    zeroClosed ((flagStep s row col).board) :=
  zeroClosed_congr s.board _
    (fun q => ⟨flagStep_revealed s row col q, flagStep_hasMine s row col q,
      flagStep_nearby s row col q⟩) hcl

theorem frame_zeroClosed (s : GameState) (i : Input) (hcl : zeroClosed s.board) :
    zeroClosed ((frame s i).board) := by
  unfold frame
  split
  · exact hcl
  · simp only [winStep_board]
    have h1 : zeroClosed ((if i.left then revealStep s i.pos.1 i.pos.2 else s).board) := by
      split
      · rw [revealStep_eq_with]
        exact revealStepWith_zeroClosed offsets (fun _ => Iff.rfl) s _ _ hcl
      · exact hcl
    split
    · exact flagStep_zeroClosed _ _ _ h1
    · exact h1

/-! ## Mine placement lemmas -/

theorem PlaceMinesAux_fields : ∀ (rands : List Nat) (b : Board) (n : Nat) (q : Pos),
    (((PlaceMinesAux rands b n).1) q).revealed = (b q).revealed ∧
    (((PlaceMinesAux rands b n).1) q).flagged = (b q).flagged ∧
    (((PlaceMinesAux rands b n).1) q).nearbyMines = (b q).nearbyMines
  | [], _, _, _ => ⟨rfl, rfl, rfl⟩
  | [_], _, _, _ => ⟨rfl, rfl, rfl⟩
  | r :: c :: rest, b, n, q => by
    unfold PlaceMinesAux
    split
    · split
      · exact PlaceMinesAux_fields rest b n q
      · have h := PlaceMinesAux_fields rest
          (updateCell b (randPos r c) fun cl => { cl with hasMine := true }) (n + 1) q
        by_cases he : q = randPos r c
        · subst he
          simpa using h
        · rw [updateCell_of_ne _ _ _ _ he] at h
          exact h
    · exact ⟨rfl, rfl, rfl⟩

theorem mineCount_update_mine (b : Board) (p : Pos) (h : (b p).hasMine = false) :
    mineCount (updateCell b p fun cl => { cl with hasMine := true }) = mineCount b + 1 := by
  unfold mineCount
  have hset : (Finset.univ.filter fun x : Pos =>
        ((updateCell b p fun cl => { cl with hasMine := true }) x).hasMine = true)
      = insert p (Finset.univ.filter fun x : Pos => (b x).hasMine = true) := by
    ext x
    by_cases hx : x = p
    · subst hx
      simp [updateCell]
    · simp [updateCell_of_ne _ _ _ _ hx, hx]
  rw [hset, Finset.card_insert_of_not_mem (by simp [h])]

theorem PlaceMinesAux_mineCount : ∀ (rands : List Nat) (b : Board) (n : Nat),
    mineCount b = n → mineCount ((PlaceMinesAux rands b n).1) = (PlaceMinesAux rands b n).2
  | [], _, _, h => h
  | [_], _, _, h => h
  | r :: c :: rest, b, n, h => by
    unfold PlaceMinesAux
    split
    · split
      · exact PlaceMinesAux_mineCount rest b n h
      · next hmine =>
        have hm' : (b (randPos r c)).hasMine = false := by
          cases hx : (b (randPos r c)).hasMine
          · rfl
          · exact absurd hx hmine
        exact PlaceMinesAux_mineCount rest _ (n + 1)
          (by rw [mineCount_update_mine b _ hm', h])
    · exact h

theorem PlaceMinesAux_placed_le : ∀ (rands : List Nat) (b : Board) (n : Nat),
    n ≤ 10 → (PlaceMinesAux rands b n).2 ≤ 10
  | [], _, _, h => h
  | [_], _, _, h => h
  | r :: c :: rest, b, n, h => by
    unfold PlaceMinesAux
    split
    · split
      · exact PlaceMinesAux_placed_le rest b n h
      · next hlt hmine =>
        exact PlaceMinesAux_placed_le rest _ (n + 1) (by omega)
    · exact h

theorem card_Pos : Fintype.card Pos = 81 := by
  simp

theorem exists_unmined_of_count_lt (b : Board) (h : mineCount b < 81) :
    ∃ q : Pos, (b q).hasMine = false := by
  by_contra hall
  push_neg at hall
  have hall' : ∀ q : Pos, (b q).hasMine = true := by
    intro q
    cases hx : (b q).hasMine
    · exact absurd hx (hall q)
    · rfl
  have : (Finset.univ.filter fun x : Pos => (b x).hasMine = true) = Finset.univ :=
    Finset.filter_true_of_mem (fun x _ => hall' x)
  unfold mineCount at h
  rw [this, Finset.card_univ, card_Pos] at h
  omega

/-- Termination of the placement loop: as soon as the random stream tries
every currently-unmined cell, ten mines end up placed.  (With genuine
randomness the stream eventually does so with probability one; this is the
termination argument for the C `while` loop.) -/
theorem PlaceMinesAux_complete : ∀ (rands : List Nat) (b : Board) (n : Nat),
    mineCount b = n → n ≤ 10 →
    (∀ q : Pos, (b q).hasMine = false → q ∈ pairCells rands) →
    (PlaceMinesAux rands b n).2 = 10
  | [], b, n, hc, hle, hcov => by
    have h81 : mineCount b < 81 := by omega
    obtain ⟨q, hq⟩ := exists_unmined_of_count_lt b h81
    have := hcov q hq
    simp [pairCells] at this
  | [x], b, n, hc, hle, hcov => by
    have h81 : mineCount b < 81 := by omega
    obtain ⟨q, hq⟩ := exists_unmined_of_count_lt b h81
    have := hcov q hq
    simp [pairCells] at this
  | r :: c :: rest, b, n, hc, hle, hcov => by
    unfold PlaceMinesAux
    split
    · next hlt =>
      split
      · next hmine =>
        refine PlaceMinesAux_complete rest b n hc hle ?_
        intro q hq
        have hmem := hcov q hq
        rw [pairCells] at hmem
        rcases List.mem_cons.mp hmem with heq | hmem'
        · rw [heq] at hq
          rw [hq] at hmine
          cases hmine
        · exact hmem'
      · next hmine =>
        have hm' : (b (randPos r c)).hasMine = false := by
          cases hx : (b (randPos r c)).hasMine
          · rfl
          · exact absurd hx hmine
        refine PlaceMinesAux_complete rest _ (n + 1)
          (by rw [mineCount_update_mine b _ hm', hc]) (by omega) ?_
        intro q hq
        have hqne : q ≠ randPos r c := by
          intro he
          subst he
          simp [updateCell] at hq
        rw [updateCell_of_ne _ _ _ _ hqne] at hq
        have hmem := hcov q hq
        rw [pairCells] at hmem
        rcases List.mem_cons.mp hmem with heq | hmem'
        · exact absurd heq hqne
        · exact hmem'
    · next hlt =>
      show n = 10
      omega

/-! ## Facts about the freshly set up board -/

theorem CountNearbyMines_revealed (b : Board) (q : Pos) :
    ((CountNearbyMines b) q).revealed = (b q).revealed := by
  rw [CountNearbyMines_spec]; split <;> rfl

theorem CountNearbyMines_flagged (b : Board) (q : Pos) :
    ((CountNearbyMines b) q).flagged = (b q).flagged := by
  rw [CountNearbyMines_spec]; split <;> rfl

theorem CountNearbyMines_hasMine (b : Board) (q : Pos) :
    ((CountNearbyMines b) q).hasMine = (b q).hasMine := by
  rw [CountNearbyMines_spec]; split <;> rfl

theorem NewGame_revealed (rands : List Nat) (q : Pos) :
    ((NewGame rands) q).revealed = false := by
  unfold NewGame PlaceMines
  rw [CountNearbyMines_revealed, (PlaceMinesAux_fields rands InitializeBoard 0 q).1]
  rfl

theorem NewGame_flagged (rands : List Nat) (q : Pos) :
    ((NewGame rands) q).flagged = false := by
  unfold NewGame PlaceMines
  rw [CountNearbyMines_flagged, (PlaceMinesAux_fields rands InitializeBoard 0 q).2.1]
  rfl

theorem mineCount_congr (b b' : Board) (h : ∀ q, (b' q).hasMine = (b q).hasMine) :
    mineCount b' = mineCount b := by
  unfold mineCount
  congr 1
  ext x
  simp only [Finset.mem_filter, Finset.mem_univ, true_and]
  rw [h x]

theorem mineCount_InitializeBoard : mineCount InitializeBoard = 0 := by
  unfold mineCount InitializeBoard
  simp

theorem NewGame_mineCount (rands : List Nat) :
    mineCount (NewGame rands) = (PlaceMinesAux rands InitializeBoard 0).2 := by
  have hcm : mineCount (NewGame rands) = mineCount (PlaceMines InitializeBoard rands) :=
    mineCount_congr _ _ (fun q => by rw [NewGame, CountNearbyMines_hasMine])
  rw [hcm]
  exact PlaceMinesAux_mineCount rands InitializeBoard 0 mineCount_InitializeBoard

/-! ## Frame-level preservation and reachability invariants -/

theorem frame_hasMine (s : GameState) (i : Input) (q : Pos) :
    ((frame s i).board q).hasMine = (s.board q).hasMine := by
  unfold frame
  split
  · rfl
  · simp only [winStep_board]
    have h1 : ((if i.left then revealStep s i.pos.1 i.pos.2 else s).board q).hasMine
        = (s.board q).hasMine := by
      split
      · rw [revealStep_eq_with]
        exact revealStepWith_hasMine offsets s _ _ q
      · rfl
    split
    · rw [flagStep_hasMine]
      exact h1
    · exact h1

theorem frame_nearby (s : GameState) (i : Input) (q : Pos) :
    ((frame s i).board q).nearbyMines = (s.board q).nearbyMines := by
  unfold frame
  split
  · rfl
  · simp only [winStep_board]
    have h1 : ((if i.left then revealStep s i.pos.1 i.pos.2 else s).board q).nearbyMines
        = (s.board q).nearbyMines := by
      split
      · rw [revealStep_eq_with]
        exact revealStepWith_nearby offsets s _ _ q
      · rfl
    split
    · rw [flagStep_nearby]
      exact h1
    · exact h1

theorem frame_of_ended (s : GameState) (i : Input) (h : (s.gameOver || s.win) = true) :
    frame s i = s := by
  rw [frame, if_pos h]

theorem Reachable_frame {s : GameState} (h : Reachable s) (i : Input) :
    Reachable (frame s i) := by
  obtain ⟨rands, inputs, rfl⟩ := h
  exact ⟨rands, inputs ++ [i], by rw [List.foldl_append]; rfl⟩

theorem initialState_zeroClosed (rands : List Nat) :
    zeroClosed (initialState rands).board := by
  intro z q hzr _ _ _
  have : ((initialState rands).board z).revealed = false := NewGame_revealed rands z
  rw [this] at hzr
  cases hzr

theorem Reachable_zeroClosed {s : GameState} (h : Reachable s) : zeroClosed s.board := by
  obtain ⟨rands, inputs, rfl⟩ := h
  have key : ∀ (l : List Input) (s0 : GameState), zeroClosed s0.board →
      zeroClosed (List.foldl frame s0 l).board := by
    intro l
    induction l with
    | nil => intro s0 h0; exact h0
    | cons i rest ih =>
      intro s0 h0
      exact ih (frame s0 i) (frame_zeroClosed s0 i h0)
  exact key inputs (initialState rands) (initialState_zeroClosed rands)

theorem frame_not_ended (s : GameState) (i : Input) (hend : (s.gameOver || s.win) = false) :
    frame s i = winStep
      (if i.right then
        flagStep (if i.left then revealStep s i.pos.1 i.pos.2 else s) i.pos.1 i.pos.2
      else (if i.left then revealStep s i.pos.1 i.pos.2 else s)) := by
  rw [frame, if_neg (by simp [hend])]

/-- One frame preserves "no mine is revealed while the game is not lost". -/
theorem frame_mineInv (s : GameState) (i : Input)
    (hI : s.gameOver = false → ∀ q, (s.board q).hasMine = true → (s.board q).revealed = false)
    (hgo : (frame s i).gameOver = false) :
    ∀ q, ((frame s i).board q).hasMine = true → ((frame s i).board q).revealed = false := by
  by_cases hend : (s.gameOver || s.win) = true
  · rw [frame_of_ended s i hend] at hgo ⊢
    exact hI hgo
  · have hend' : (s.gameOver || s.win) = false := by
      cases hb : (s.gameOver || s.win)
      · rfl
      · exact absurd hb hend
    have hgo0 : s.gameOver = false := by
      cases hx : s.gameOver
      · rfl
      · rw [hx] at hend'; simp at hend'
    have hMI := hI hgo0
    rw [frame_not_ended s i hend'] at hgo ⊢
    set s1 := if i.left then revealStep s i.pos.1 i.pos.2 else s with hs1
    set s2 := if i.right then flagStep s1 i.pos.1 i.pos.2 else s1 with hs2
    have hgos2 : s2.gameOver = s1.gameOver := by
      rw [hs2]
      split
      · exact flagStep_gameOver _ _ _
      · rfl
    have hgo1 : s1.gameOver = false := by
      rw [winStep_gameOver, hgos2] at hgo
      exact hgo
    have hext : Extends s.board s1.board := by
      rw [hs1] at hgo1 ⊢
      by_cases hl : i.left = true
      · rw [if_pos hl] at hgo1 ⊢
        rw [revealStep_eq_with] at hgo1 ⊢
        exact revealStepWith_extends_of_not_lost offsets s _ _ hgo1
      · rw [if_neg hl]
        exact Extends.refl _
    intro q hq
    have hbm : ((winStep s2).board q).hasMine = (s1.board q).hasMine := by
      rw [winStep_board, hs2]
      split
      · exact flagStep_hasMine _ _ _ q
      · rfl
    have hbr : ((winStep s2).board q).revealed = (s1.board q).revealed := by
      rw [winStep_board, hs2]
      split
      · exact flagStep_revealed _ _ _ q
      · rfl
    rw [hbr]
    rw [hbm] at hq
    have hqs : (s.board q).hasMine = true := by rw [← hext.hasMine_eq q]; exact hq
    rw [hext.mine_revealed_eq q hqs]
    exact hMI q hqs

theorem initialState_mineInv (rands : List Nat) :
    ∀ q, ((initialState rands).board q).hasMine = true →
      ((initialState rands).board q).revealed = false :=
  fun q _ => NewGame_revealed rands q

/-- In every reachable state that is not lost, no mined cell is revealed. -/
theorem Reachable_mineInv {s : GameState} (h : Reachable s) (hgo : s.gameOver = false) :
    ∀ q, (s.board q).hasMine = true → (s.board q).revealed = false := by
  obtain ⟨rands, inputs, rfl⟩ := h
  have key : ∀ (l : List Input) (s0 : GameState),
      (s0.gameOver = false → ∀ q, (s0.board q).hasMine = true → (s0.board q).revealed = false) →
      ((List.foldl frame s0 l).gameOver = false →
        ∀ q, ((List.foldl frame s0 l).board q).hasMine = true →
          ((List.foldl frame s0 l).board q).revealed = false) := by
    intro l
    induction l with
    | nil => intro s0 h0; exact h0
    | cons i rest ih =>
      intro s0 h0
      exact ih (frame s0 i) (frame_mineInv s0 i h0)
  exact key inputs (initialState rands) (fun _ => initialState_mineInv rands) hgo

/-! ## Counting bridges

The C code counts by loops over the row-major cell list; we relate those
loops to cardinalities of the corresponding sets of cells. -/

theorem foldl_count {α : Type} (f : α → Bool) :
    ∀ (l : List α) (n : Nat),
      l.foldl (fun cnt d => if f d = true then cnt + 1 else cnt) n = n + l.countP f := by
  intro l
  induction l with
  | nil => intro n; simp
  | cons d rest ih =>
    intro n
    rw [List.foldl_cons, List.countP_cons]
    by_cases h : f d = true
    · rw [if_pos h, ih, h]
      simp
      omega
    · rw [if_neg h, ih]
      have hf : f d ≠ true := h
      simp [hf]

/-- `revealedCount` equals the number of revealed non-mine cells. -/
theorem revealedCount_eq_card (b : Board) :
    revealedCount b = (Finset.univ.filter fun q : Pos =>
      (b q).revealed = true ∧ (b q).hasMine = false).card := by
  unfold revealedCount
  rw [List.countP_eq_length_filter]
  have hnodup : (allPositions.filter fun p => (b p).revealed && !(b p).hasMine).Nodup :=
    allPositions_nodup.filter _
  rw [← List.toFinset_card_of_nodup hnodup]
  congr 1
  ext q
  simp only [List.mem_toFinset, List.mem_filter, mem_allPositions, true_and,
    Finset.mem_filter, Finset.mem_univ, Bool.and_eq_true, Bool.not_eq_true']

theorem mineAtI_inBounds (b : Board) (r c : Int) (h : mineAtI b r c = true) : inBoundsI r c := by
  unfold mineAtI at h
  split at h
  · assumption
  · cases h

theorem mineAtI_hasMine (b : Board) (r c : Int) (h : mineAtI b r c = true)
    (hb : inBoundsI r c) : (b (posOfI r c hb)).hasMine = true := by
  unfold mineAtI at h
  rw [dif_pos hb] at h
  exact h

theorem mineAtI_of_hasMine (b : Board) (r c : Int) (hb : inBoundsI r c)
    (h : (b (posOfI r c hb)).hasMine = true) : mineAtI b r c = true := by
  unfold mineAtI
  rw [dif_pos hb]
  exact h

theorem posOfI_coords_self (q : Pos) :
    posOfI (q.1.val : Int) (q.2.val : Int) (pos_inBounds q) = q := by
  rw [posOfI_eq_iff]
  exact ⟨rfl, rfl⟩

/-- The inner loop of `CountNearbyMines` counts exactly the mined cells in
the 3x3 Chebyshev ball around the centre (the centre included, as in C). -/
theorem CountNearbyAt_eq_card (b : Board) (p : Pos) :
    CountNearbyAt b (p.1.val : Int) (p.2.val : Int)
      = (Finset.univ.filter fun q : Pos => near p q ∧ (b q).hasMine = true).card := by
  have h1 : CountNearbyAt b (p.1.val : Int) (p.2.val : Int)
      = offsets.countP fun d => mineAtI b ((p.1.val : Int) + d.1) ((p.2.val : Int) + d.2) := by
    unfold CountNearbyAt
    rw [foldl_count]
    omega
  rw [h1, List.countP_eq_length_filter]
  have hnodup : (offsets.filter fun d : Int × Int =>
      mineAtI b ((p.1.val : Int) + d.1) ((p.2.val : Int) + d.2)).Nodup :=
    (by decide : offsets.Nodup).filter _
  rw [← List.toFinset_card_of_nodup hnodup]
  refine Finset.card_bij'
    (fun d hd => posOfI ((p.1.val : Int) + d.1) ((p.2.val : Int) + d.2)
      (mineAtI_inBounds b _ _ (List.mem_filter.mp (List.mem_toFinset.mp hd)).2))
    (fun q _ => (((q.1.val : Int) - (p.1.val : Int)), ((q.2.val : Int) - (p.2.val : Int))))
    ?_ ?_ ?_ ?_
  · -- the forward map lands in the cell-side set
    intro d hd
    have hdm := List.mem_filter.mp (List.mem_toFinset.mp hd)
    have hdo : d ∈ offsets := hdm.1
    have hdf := hdm.2
    rw [mem_offsets] at hdo
    rw [Finset.mem_filter]
    refine ⟨Finset.mem_univ _, ⟨?_, ?_⟩, ?_⟩
    · simp only [posOfI_fst]
      omega
    · simp only [posOfI_snd]
      omega
    · exact mineAtI_hasMine b _ _ (by simpa using hdf) _
  · -- the backward map lands in the offset-side set
    intro q hq
    rw [Finset.mem_filter] at hq
    obtain ⟨_, ⟨hn1, hn2⟩, hm⟩ := hq
    rw [List.mem_toFinset, List.mem_filter]
    constructor
    · rw [mem_offsets]
      constructor
      · show ((q.1.val : Int) - (p.1.val : Int)).natAbs ≤ 1
        omega
      · show ((q.2.val : Int) - (p.2.val : Int)).natAbs ≤ 1
        omega
    · show mineAtI b ((p.1.val : Int) + ((q.1.val : Int) - (p.1.val : Int)))
        ((p.2.val : Int) + ((q.2.val : Int) - (p.2.val : Int))) = true
      have e1 : (p.1.val : Int) + ((q.1.val : Int) - (p.1.val : Int)) = (q.1.val : Int) := by omega
      have e2 : (p.2.val : Int) + ((q.2.val : Int) - (p.2.val : Int)) = (q.2.val : Int) := by omega
      rw [e1, e2]
      exact mineAtI_of_hasMine b _ _ (pos_inBounds q) (by rw [posOfI_coords_self]; exact hm)
  · -- left inverse (offset round trip)
    intro d hd
    obtain ⟨d1, d2⟩ := d
    simp only [posOfI_fst, posOfI_snd, Prod.mk.injEq]
    constructor <;> omega
  · -- right inverse (cell round trip)
    intro q hq
    rw [posOfI_eq_iff]
    refine ⟨?_, ?_⟩
    · show (q.1.val : Int)
        = (p.1.val : Int) + (((q.1.val : Int) - (p.1.val : Int),
            (q.2.val : Int) - (p.2.val : Int)).1)
      show (q.1.val : Int) = (p.1.val : Int) + ((q.1.val : Int) - (p.1.val : Int))
      omega
    · show (q.2.val : Int)
        = (p.2.val : Int) + (((q.1.val : Int) - (p.1.val : Int),
            (q.2.val : Int) - (p.2.val : Int)).2)
      show (q.2.val : Int) = (p.2.val : Int) + ((q.2.val : Int) - (p.2.val : Int))
      omega

/-- The spec's neighbour count: mined cells among the at-most-8 in-grid
neighbours of `p` (the cell itself excluded).  This is the reference
definition the code is compared against for claim C5. -/
def specNeighborMineCount (b : Board) (p : Pos) : Nat :=
  (Finset.univ.filter fun q : Pos => q ≠ p ∧ near p q ∧ (b q).hasMine = true).card

theorem CountNearbyAt_eq_spec (b : Board) (p : Pos) (hm : (b p).hasMine = false) :
    CountNearbyAt b (p.1.val : Int) (p.2.val : Int) = specNeighborMineCount b p := by
  rw [CountNearbyAt_eq_card b p]
  unfold specNeighborMineCount
  congr 1
  ext q
  simp only [Finset.mem_filter, Finset.mem_univ, true_and]
  constructor
  · rintro ⟨hn, hq⟩
    refine ⟨?_, hn, hq⟩
    intro he
    rw [he, hm] at hq
    cases hq
  · rintro ⟨_, hn, hq⟩
    exact ⟨hn, hq⟩

theorem specNeighborMineCount_congr (b b' : Board) (p : Pos)
    (h : ∀ q, (b' q).hasMine = (b q).hasMine) :
    specNeighborMineCount b' p = specNeighborMineCount b p := by
  unfold specNeighborMineCount
  congr 1
  ext q
  simp only [Finset.mem_filter, Finset.mem_univ, true_and]
  rw [h q]

/-! ## Reduction helpers for the public operations -/

theorem Reveal_of_ended (s : GameState) (row col : Int) (h : (s.gameOver || s.win) = true) :
    Reveal s row col = s := by
  simp only [Reveal]
  rw [if_pos h]

theorem Reveal_playing (s : GameState) (row col : Int) (h : (s.gameOver || s.win) = false) :
    Reveal s row col = revealStep s row col := by
  simp only [Reveal]
  rw [if_neg (by simp [h])]

theorem ToggleFlag_of_ended (s : GameState) (row col : Int) (h : (s.gameOver || s.win) = true) :
    ToggleFlag s row col = s := by
  simp only [ToggleFlag]
  rw [if_pos h]

theorem ToggleFlag_playing (s : GameState) (row col : Int) (h : (s.gameOver || s.win) = false) :
    ToggleFlag s row col = flagStep s row col := by
  simp only [ToggleFlag]
  rw [if_neg (by simp [h])]

theorem revealStep_of_oob (s : GameState) (row col : Int) (h : ¬ inBoundsI row col) :
    revealStep s row col = s := by
  unfold revealStep
  rw [dif_neg h]

theorem revealStep_of_revealed (s : GameState) (row col : Int) (hb : inBoundsI row col)
    (h : (s.board (posOfI row col hb)).revealed = true) : revealStep s row col = s := by
  unfold revealStep
  split
  · simp only
    split
    · next hg =>
      exfalso
      have h2 : (s.board (posOfI row col hb)).revealed = false := hg.2
      rw [h] at h2
      cases h2
    · rfl
  · next hnb => exact absurd hb hnb

theorem revealStep_of_flagged (s : GameState) (row col : Int) (hb : inBoundsI row col)
    (h : (s.board (posOfI row col hb)).flagged = true) : revealStep s row col = s := by
  unfold revealStep
  split
  · simp only
    split
    · next hg =>
      exfalso
      have h2 : (s.board (posOfI row col hb)).flagged = false := hg.1
      rw [h] at h2
      cases h2
    · rfl
  · next hnb => exact absurd hb hnb

theorem flagStep_of_oob (s : GameState) (row col : Int) (h : ¬ inBoundsI row col) :
    flagStep s row col = s := by
  unfold flagStep
  rw [dif_neg h]

theorem flagStep_of_revealed (s : GameState) (row col : Int) (hb : inBoundsI row col)
    (h : (s.board (posOfI row col hb)).revealed = true) : flagStep s row col = s := by
  unfold flagStep
  split
  · simp only
    split
    · next hg =>
      exfalso
      have h2 : (s.board (posOfI row col hb)).revealed = false := hg
      rw [h] at h2
      cases h2
    · rfl
  · next hnb => exact absurd hb hnb

theorem flagStep_of_unrevealed (s : GameState) (row col : Int) (hb : inBoundsI row col)
    (h : (s.board (posOfI row col hb)).revealed = false) :
    flagStep s row col =
      { s with board := (updateCell s.board (posOfI row col hb)
          fun cl => { cl with flagged := !cl.flagged }) } := by
  unfold flagStep
  rw [dif_pos hb]
  simp only
  rw [if_pos h]

theorem revealStep_cases (s : GameState) (row col : Int) :
    revealStep s row col = s ∨
    (revealStep s row col).gameOver = true ∨
    (∃ h : inBoundsI row col,
      ((revealStep s row col).board (posOfI row col h)).revealed = true ∧
      (revealStep s row col).gameOver = s.gameOver ∧ (revealStep s row col).win = s.win) := by
  unfold revealStep
  split
  · next hb =>
    simp only
    split
    · next hg =>
      split
      · exact Or.inr (Or.inl rfl)
      · split
        · refine Or.inr (Or.inr ⟨hb, ?_, rfl, rfl⟩)
          refine (RevealEmptyGo_extends offsets 82 _ row col).revealed_mono _ ?_
          have : ((updateCell s.board (posOfI row col hb) fun cl =>
              { cl with revealed := true }) (posOfI row col hb)).revealed = true := by
            simp
          exact this
        · refine Or.inr (Or.inr ⟨hb, ?_, rfl, rfl⟩)
          have : ((updateCell s.board (posOfI row col hb) fun cl =>
              { cl with revealed := true }) (posOfI row col hb)).revealed = true := by
            simp
          exact this
    · exact Or.inl rfl
  · exact Or.inl rfl

theorem updateCell_updateCell (b : Board) (p : Pos) (f g : Cell → Cell) :
    updateCell (updateCell b p f) p g = updateCell b p fun cl => g (f cl) := by
  funext q
  by_cases h : q = p
  · subst h
    simp
  · rw [updateCell_of_ne _ _ _ _ h, updateCell_of_ne _ _ _ _ h, updateCell_of_ne _ _ _ _ h]

theorem updateCell_flip_flip (b : Board) (p : Pos) :
    updateCell (updateCell b p fun cl => { cl with flagged := !cl.flagged }) p
      (fun cl => { cl with flagged := !cl.flagged }) = b := by
  rw [updateCell_updateCell]
  funext q
  by_cases h : q = p
  · subst h
    simp [updateCell]
  · rw [updateCell_of_ne _ _ _ _ h]

/-! ## Concrete game used by the witnesses and the counterexample

Ten mines: five walling off the upper-left corner and five in the bottom
row.  Cell (0,0) then has a zero count and its cascade stops at the三
bordering numbered cells (0,1), (1,0) and (1,1). -/

/-- A deterministic random stream placing mines at
(0,2), (1,2), (2,0), (2,1), (2,2), (8,0), (8,1), (8,2), (8,3), (8,4). -/
def cexRands : List Nat := [0, 2, 1, 2, 2, 0, 2, 1, 2, 2, 8, 0, 8, 1, 8, 2, 8, 3, 8, 4]

/-- The concrete game at the start of play. -/
def cexStart : GameState := initialState cexRands

def p00 : Pos := (0, 0)
def p11 : Pos := (1, 1)
def p02 : Pos := (0, 2)

def iFlag11 : Input := { pos := (1, 1), left := false, right := true }
def iReveal00 : Input := { pos := (0, 0), left := true, right := false }
def noClick : Input := { pos := (0, 0), left := false, right := false }

/-- The concrete game after right-clicking (1,1): that cell is flagged. -/
def cexFlagged : GameState := frame cexStart iFlag11

/-- A random stream that tries every cell once, row-major. -/
def coveringRands : List Nat := allPositions.flatMap fun p => [p.1.val, p.2.val]

/-! ## The claims -/

/-- **C7** (error_handling): `Reveal(row, col)` is a no-op — the state is
returned entirely unchanged, which is the code-level content of the spec's
`Unchanged` outcome (the C function returns nothing) — whenever the
coordinates are out of bounds, the target cell is already revealed, the
target cell is flagged, or the phase is not Playing (`gameOver` or `win`
set); moreover `Reveal` is idempotent: a second `Reveal` at the same
coordinates never changes the state again. -/
theorem reveal_noop_conditions (bd : Board) (g w : Bool) (s : GameState) (row col : Int) :
    (¬ inBoundsI row col → Reveal ⟨bd, g, w⟩ row col = ⟨bd, g, w⟩) ∧
    (∀ hb : inBoundsI row col, (bd (posOfI row col hb)).revealed = true →
      Reveal ⟨bd, g, w⟩ row col = ⟨bd, g, w⟩) ∧
    (∀ hb : inBoundsI row col, (bd (posOfI row col hb)).flagged = true →
      Reveal ⟨bd, g, w⟩ row col = ⟨bd, g, w⟩) ∧
    ((g || w) = true → Reveal ⟨bd, g, w⟩ row col = ⟨bd, g, w⟩) ∧
    (Reveal (Reveal s row col) row col = Reveal s row col) := by
  refine ⟨?_, ?_, ?_, ?_, ?_⟩
  · intro h
    by_cases hend : (g || w) = true
    · exact Reveal_of_ended _ row col hend
    · have hend' : (g || w) = false := by
        cases hx : (g || w)
        · rfl
        · exact absurd hx hend
      rw [Reveal_playing _ row col hend']
      exact revealStep_of_oob _ row col h
  · intro hb hr
    by_cases hend : (g || w) = true
    · exact Reveal_of_ended _ row col hend
    · have hend' : (g || w) = false := by
        cases hx : (g || w)
        · rfl
        · exact absurd hx hend
      rw [Reveal_playing _ row col hend']
      exact revealStep_of_revealed _ row col hb hr
  · intro hb hf
    by_cases hend : (g || w) = true
    · exact Reveal_of_ended _ row col hend
    · have hend' : (g || w) = false := by
        cases hx : (g || w)
        · rfl
        · exact absurd hx hend
      rw [Reveal_playing _ row col hend']
      exact revealStep_of_flagged _ row col hb hf
  · intro hend
    exact Reveal_of_ended _ row col hend
  · by_cases hend : (s.gameOver || s.win) = true
    · rw [Reveal_of_ended s row col hend]
      exact Reveal_of_ended s row col hend
    · have hend' : (s.gameOver || s.win) = false := by
        cases hx : (s.gameOver || s.win)
        · rfl
        · exact absurd hx hend
      rw [Reveal_playing s row col hend']
      rcases revealStep_cases s row col with heq | hgo | ⟨hb, hrev2, hgoeq, hwineq⟩
      · rw [heq, Reveal_playing s row col hend', heq]
      · exact Reveal_of_ended _ row col (by rw [hgo]; rfl)
      · have hend2 : ((revealStep s row col).gameOver || (revealStep s row col).win) = false := by
          rw [hgoeq, hwineq]
          exact hend'
        rw [Reveal_playing _ row col hend2]
        exact revealStep_of_revealed _ row col hb hrev2

/-- Witness for C7 at concrete inputs: an out-of-bounds click is rejected,
and revealing twice at (0,0) in the concrete game changes nothing the
second time. -/
theorem reveal_noop_conditions_witness :
    (¬ inBoundsI 9 0) ∧
    Reveal ⟨NewGame cexRands, false, false⟩ 9 0 = ⟨NewGame cexRands, false, false⟩ ∧
    Reveal (Reveal cexStart 0 0) 0 0 = Reveal cexStart 0 0 :=
  ⟨by decide,
   (reveal_noop_conditions (NewGame cexRands) false false cexStart 9 0).1 (by decide),
   (reveal_noop_conditions (NewGame cexRands) false false cexStart 0 0).2.2.2.2⟩

/-- **C8** (algebraic_relational): `ToggleFlag(row, col)` is a no-op when
the coordinates are out of bounds, the cell is already revealed, or the
phase is not Playing; otherwise it flips exactly that cell's `flagged`
field (no other cell and no other field changes, and no cell becomes
revealed), and toggling twice restores the exact original state. -/
theorem toggle_flag_noop_and_involution (bd : Board) (g w : Bool) (row col : Int) :
    (¬ inBoundsI row col → ToggleFlag ⟨bd, g, w⟩ row col = ⟨bd, g, w⟩) ∧
    (∀ hb : inBoundsI row col, (bd (posOfI row col hb)).revealed = true →
      ToggleFlag ⟨bd, g, w⟩ row col = ⟨bd, g, w⟩) ∧
    ((g || w) = true → ToggleFlag ⟨bd, g, w⟩ row col = ⟨bd, g, w⟩) ∧
    (∀ hb : inBoundsI row col, (bd (posOfI row col hb)).revealed = false → (g || w) = false →
      ((ToggleFlag ⟨bd, g, w⟩ row col).board (posOfI row col hb)).flagged
          = !(bd (posOfI row col hb)).flagged ∧
      (∀ q : Pos, q ≠ posOfI row col hb → (ToggleFlag ⟨bd, g, w⟩ row col).board q = bd q) ∧
      (∀ q : Pos, ((ToggleFlag ⟨bd, g, w⟩ row col).board q).revealed = (bd q).revealed) ∧
      (ToggleFlag ⟨bd, g, w⟩ row col).gameOver = g ∧
      (ToggleFlag ⟨bd, g, w⟩ row col).win = w ∧
      ToggleFlag (ToggleFlag ⟨bd, g, w⟩ row col) row col = ⟨bd, g, w⟩) := by
  refine ⟨?_, ?_, ?_, ?_⟩
  · intro h
    by_cases hend : (g || w) = true
    · exact ToggleFlag_of_ended _ row col hend
    · have hend' : (g || w) = false := by
        cases hx : (g || w)
        · rfl
        · exact absurd hx hend
      rw [ToggleFlag_playing _ row col hend']
      exact flagStep_of_oob _ row col h
  · intro hb hr
    by_cases hend : (g || w) = true
    · exact ToggleFlag_of_ended _ row col hend
    · have hend' : (g || w) = false := by
        cases hx : (g || w)
        · rfl
        · exact absurd hx hend
      rw [ToggleFlag_playing _ row col hend']
      exact flagStep_of_revealed _ row col hb hr
  · intro hend
    exact ToggleFlag_of_ended _ row col hend
  · intro hb hr hend
    rw [ToggleFlag_playing _ row col hend, flagStep_of_unrevealed _ row col hb hr]
    refine ⟨?_, ?_, ?_, rfl, rfl, ?_⟩
    · dsimp only
      simp
    · intro q hq
      dsimp only
      exact updateCell_of_ne _ _ _ _ hq
    · intro q
      dsimp only
      by_cases hq : q = posOfI row col hb
      · subst hq
        simp
      · rw [updateCell_of_ne _ _ _ _ hq]
    · rw [ToggleFlag_playing _ row col (by exact hend)]
      rw [flagStep_of_unrevealed _ row col hb (by dsimp only; simpa using hr)]
      dsimp only
      rw [updateCell_flip_flip]

/-- Witness for C8 at concrete inputs: toggling (1,1) in the fresh concrete
game flips its flag, reveals nothing, and toggling twice restores the
state. -/
theorem toggle_flag_noop_and_involution_witness :
    inBoundsI 1 1 ∧ ((NewGame cexRands) (posOfI 1 1 (by decide))).revealed = false ∧
    ((ToggleFlag ⟨NewGame cexRands, false, false⟩ 1 1).board
        (posOfI 1 1 (by decide))).flagged
      = !((NewGame cexRands) (posOfI 1 1 (by decide))).flagged ∧
    ToggleFlag (ToggleFlag ⟨NewGame cexRands, false, false⟩ 1 1) 1 1
      = ⟨NewGame cexRands, false, false⟩ := by
  have h := (toggle_flag_noop_and_involution (NewGame cexRands) false false 1 1).2.2.2
    (by decide) (by decide) rfl
  exact ⟨by decide, by decide, h.1, h.2.2.2.2.2⟩

/-- Reduction of `revealStep` in the mine-click case. -/
theorem revealStep_mine (s : GameState) (row col : Int) (hb : inBoundsI row col)
    (hflag : (s.board (posOfI row col hb)).flagged = false)
    (hrev : (s.board (posOfI row col hb)).revealed = false)
    (hmine : (s.board (posOfI row col hb)).hasMine = true) :
    revealStep s row col =
      { s with board := RevealAllMines (updateCell s.board (posOfI row col hb)
          fun cl => { cl with revealed := true }), gameOver := true } := by
  unfold revealStep
  rw [dif_pos hb]
  simp only
  rw [if_pos ⟨hflag, hrev⟩, if_pos (by rw [updateCell_reveal_hasMine]; exact hmine)]

/-- **C3** (functional_correctness): in phase Playing, revealing an
in-bounds, unflagged, unrevealed mined cell sets the phase to Lost, leaves
every mined cell revealed, leaves every non-mined cell's `revealed` exactly
as it was (so cells not previously revealed stay unrevealed), and changes
no cell's `flagged` field. -/
theorem mine_reveal_sets_lost (bd : Board) (row col : Int) (hb : inBoundsI row col)
    (hflag : (bd (posOfI row col hb)).flagged = false)
    (hrev : (bd (posOfI row col hb)).revealed = false)
    (hmine : (bd (posOfI row col hb)).hasMine = true) :
    phase (Reveal ⟨bd, false, false⟩ row col) = GamePhase.Lost ∧
    (∀ q, (bd q).hasMine = true →
      ((Reveal ⟨bd, false, false⟩ row col).board q).revealed = true) ∧
    (∀ q, (bd q).hasMine = false →
      ((Reveal ⟨bd, false, false⟩ row col).board q).revealed = (bd q).revealed) ∧
    (∀ q, ((Reveal ⟨bd, false, false⟩ row col).board q).flagged = (bd q).flagged) := by
  rw [Reveal_playing ⟨bd, false, false⟩ row col rfl,
    revealStep_mine ⟨bd, false, false⟩ row col hb hflag hrev hmine]
  refine ⟨rfl, ?_, ?_, ?_⟩
  · intro q hq
    dsimp only
    exact RevealAllMines_mine_revealed _ q (by rw [updateCell_reveal_hasMine]; exact hq)
  · intro q hq
    dsimp only
    rw [RevealAllMines_safe_revealed _ q (by rw [updateCell_reveal_hasMine]; exact hq)]
    have hqp : q ≠ posOfI row col hb := by
      intro he
      rw [he, hmine] at hq
      cases hq
    rw [updateCell_of_ne _ _ _ _ hqp]
  · intro q
    dsimp only
    rw [RevealAllMines_flagged, updateCell_reveal_flagged]

/-- Witness for C3: clicking the mine at (0,2) of the concrete game loses
and reveals that mine. -/
theorem mine_reveal_sets_lost_witness :
    ((NewGame cexRands) (posOfI 0 2 (by decide))).hasMine = true ∧
    phase (Reveal ⟨NewGame cexRands, false, false⟩ 0 2) = GamePhase.Lost ∧
    ((Reveal ⟨NewGame cexRands, false, false⟩ 0 2).board p02).revealed = true :=
  ⟨by decide,
   (mine_reveal_sets_lost (NewGame cexRands) 0 2 (by decide) (by decide) (by decide)
      (by decide)).1,
   (mine_reveal_sets_lost (NewGame cexRands) 0 2 (by decide) (by decide) (by decide)
      (by decide)).2.1 p02 (by decide)⟩

/-- **C4** (functional_correctness): `CheckWin` is true exactly when the
number of revealed non-mine cells equals `ROWS*COLS - MINES`; a frame in
phase Playing moves the phase to Won exactly under that condition; and Won
is terminal: every subsequent frame, `Reveal` and `ToggleFlag` leaves the
state entirely unchanged. -/
theorem win_iff_safe_revealed_and_terminal (bd : Board) (g : Bool) (i : Input) (row col : Int) :
    (CheckWin bd = true ↔ revealedCount bd = 9 * 9 - 10) ∧
    (revealedCount bd = (Finset.univ.filter fun q : Pos =>
        (bd q).revealed = true ∧ (bd q).hasMine = false).card) ∧
    (phase (frame ⟨bd, false, false⟩ noClick) = GamePhase.Won ↔
      revealedCount bd = 9 * 9 - 10) ∧
    (frame ⟨bd, g, true⟩ i = ⟨bd, g, true⟩) ∧
    (Reveal ⟨bd, g, true⟩ row col = ⟨bd, g, true⟩) ∧
    (ToggleFlag ⟨bd, g, true⟩ row col = ⟨bd, g, true⟩) := by
  refine ⟨by simp [CheckWin], revealedCount_eq_card bd, ?_,
    frame_of_ended _ i (by simp), Reveal_of_ended _ row col (by simp),
    ToggleFlag_of_ended _ row col (by simp)⟩
  have hred : frame ⟨bd, false, false⟩ noClick = winStep ⟨bd, false, false⟩ := rfl
  rw [hred]
  unfold winStep
  by_cases hcw : CheckWin bd = true
  · rw [if_pos hcw]
    simp only [CheckWin, beq_iff_eq] at hcw
    exact ⟨fun _ => hcw, fun _ => rfl⟩
  · rw [if_neg hcw]
    constructor
    · intro h
      exact absurd h (by simp [phase])
    · intro h
      exact absurd (by simp [CheckWin, h] : CheckWin bd = true) hcw

/-- Witness for C4 at the concrete game: the win check and the
terminal-state equations evaluated at a real board. -/
theorem win_iff_safe_revealed_and_terminal_witness :
    (CheckWin (NewGame cexRands) = true ↔ revealedCount (NewGame cexRands) = 9 * 9 - 10) ∧
    frame ⟨NewGame cexRands, false, true⟩ noClick = ⟨NewGame cexRands, false, true⟩ ∧
    Reveal ⟨NewGame cexRands, false, true⟩ 0 0 = ⟨NewGame cexRands, false, true⟩ :=
  ⟨(win_iff_safe_revealed_and_terminal (NewGame cexRands) false noClick 0 0).1,
   (win_iff_safe_revealed_and_terminal (NewGame cexRands) false noClick 0 0).2.2.2.1,
   (win_iff_safe_revealed_and_terminal (NewGame cexRands) false noClick 0 0).2.2.2.2.1⟩

/-- **C6** (invariants): after setup (provided the placement loop finished,
i.e. `placed` reached 10 — guaranteed for any sufficiently rich random
stream by `PlaceMinesAux_complete`), exactly 10 cells are mined and every
cell is unrevealed and unflagged; and no frame ever changes any cell's
`hasMine`, so the mine count is preserved forever. -/
theorem mine_conservation (rands : List Nat) (s : GameState) (i : Input)
    (hp : (PlaceMinesAux rands InitializeBoard 0).2 = 10) :
    mineCount (NewGame rands) = 10 ∧
    (∀ q, ((NewGame rands) q).revealed = false ∧ ((NewGame rands) q).flagged = false) ∧
    (∀ q, ((frame s i).board q).hasMine = (s.board q).hasMine) ∧
    mineCount ((frame s i).board) = mineCount s.board :=
  ⟨by rw [NewGame_mineCount]; exact hp,
   fun q => ⟨NewGame_revealed rands q, NewGame_flagged rands q⟩,
   fun q => frame_hasMine s i q,
   mineCount_congr _ _ (fun q => frame_hasMine s i q)⟩

/-- Witness for C6: the concrete stream places exactly ten mines. -/
theorem mine_conservation_witness :
    (PlaceMinesAux cexRands InitializeBoard 0).2 = 10 ∧
    mineCount (NewGame cexRands) = 10 :=
  ⟨by decide,
   (mine_conservation cexRands cexStart noClick (by decide)).1⟩

/-- **C9** (termination_resources): every operation terminates.  The
cascade's recursion is bounded because each recursive call follows the
reveal of a previously-unrevealed cell: its result is independent of the
fuel once the fuel exceeds the number of unrevealed cells (at most 81 =
R*C), so the fixed fuel of 82 computes the C recursion's limit; and the
mine-placement loop finishes (`placed` reaches 10) as soon as the random
stream has offered every currently-unmined cell. -/
theorem operations_terminate :
    (∀ (f1 f2 : Nat) (b : Board) (row col : Int),
      unrevealedCount b < f1 → unrevealedCount b < f2 →
      RevealEmptyGo offsets f1 b row col = RevealEmptyGo offsets f2 b row col) ∧
    (∀ (f : Nat) (b : Board) (row col : Int), 81 < f →
      RevealEmptyGo offsets f b row col = RevealEmpty b row col) ∧
    (∀ (rands : List Nat) (b : Board) (n : Nat),
      mineCount b = n → n ≤ 10 →
      (∀ q : Pos, (b q).hasMine = false → q ∈ pairCells rands) →
      (PlaceMinesAux rands b n).2 = 10) :=
  ⟨RevealEmptyGo_fuel_independent offsets, RevealEmpty_eq_go_of_large_fuel,
   PlaceMinesAux_complete⟩

/-- Witness for C9: concrete fuels beyond the bound agree, and a stream
visiting every cell places all ten mines. -/
theorem operations_terminate_witness :
    unrevealedCount InitializeBoard < 82 ∧
    RevealEmptyGo offsets 82 InitializeBoard 0 0 = RevealEmptyGo offsets 99 InitializeBoard 0 0 ∧
    (PlaceMinesAux coveringRands InitializeBoard 0).2 = 10 := by
  have h81 := unrevealedCount_le_81 InitializeBoard
  refine ⟨by omega, operations_terminate.1 82 99 InitializeBoard 0 0 (by omega) (by omega), ?_⟩
  exact operations_terminate.2.2 coveringRands InitializeBoard 0 mineCount_InitializeBoard
    (by omega) (by decide)

/-- **C10** (invariants): in every reachable state in which the game is
ongoing, no cell is both mined and revealed; and after any further frame
that does not end in a loss, this is still so — a mined cell can become
revealed only in the very step that sets `gameOver` (the cascade never
touches mined cells and a direct mine click sets `gameOver` in the same
step). -/
theorem no_mine_revealed_while_ongoing (s : GameState) (hre : Reachable s)
    (hgo : s.gameOver = false) (hw : s.win = false) :
    (∀ q, (s.board q).hasMine = true → (s.board q).revealed = false) ∧
    (∀ (i : Input) (q : Pos), (frame s i).gameOver = false →
      ((frame s i).board q).hasMine = true → ((frame s i).board q).revealed = false) :=
  ⟨Reachable_mineInv hre hgo,
   fun i q hgo' hq => Reachable_mineInv (Reachable_frame hre i) hgo' q hq⟩

/-- Witness for C10: the mine at (0,2) of the concrete reachable start
state is unrevealed. -/
theorem no_mine_revealed_while_ongoing_witness :
    Reachable cexStart ∧ (cexStart.board p02).hasMine = true ∧
    (cexStart.board p02).revealed = false :=
  ⟨⟨cexRands, [], rfl⟩, by decide,
   (no_mine_revealed_while_ongoing cexStart ⟨cexRands, [], rfl⟩ rfl rfl).1 p02 (by decide)⟩

/-- **C5** (functional_correctness): after setup, every non-mine cell's
`nearbyMines` equals the number of mined cells among its at-most-8 in-grid
neighbours (the reference count `specNeighborMineCount`, written from the
spec's words), and no later frame ever modifies any cell's `nearbyMines`. -/
theorem nearby_counts_correct (rands : List Nat) (s : GameState) (i : Input) (p q : Pos)
    (hm : ((NewGame rands) p).hasMine = false) :
    ((NewGame rands) p).nearbyMines = specNeighborMineCount (NewGame rands) p ∧
    ((frame s i).board q).nearbyMines = (s.board q).nearbyMines := by
  constructor
  · have hmb : ((PlaceMines InitializeBoard rands) p).hasMine = false := by
      have h2 := hm
      unfold NewGame at h2
      rw [CountNearbyMines_hasMine] at h2
      exact h2
    have key : ((NewGame rands) p).nearbyMines
        = CountNearbyAt (PlaceMines InitializeBoard rands) (p.1.val : Int) (p.2.val : Int) := by
      unfold NewGame
      rw [CountNearbyMines_spec, if_neg (by rw [hmb]; simp)]
    rw [key, CountNearbyAt_eq_spec _ p hmb]
    exact (specNeighborMineCount_congr (PlaceMines InitializeBoard rands) (NewGame rands) p
      (fun x => by unfold NewGame; rw [CountNearbyMines_hasMine])).symm
  · exact frame_nearby s i q

/-- Witness for C5: the concrete zero cell (0,0) has the reference count. -/
theorem nearby_counts_correct_witness :
    ((NewGame cexRands) p00).hasMine = false ∧
    ((NewGame cexRands) p00).nearbyMines = specNeighborMineCount (NewGame cexRands) p00 :=
  ⟨by decide, (nearby_counts_correct cexRands cexStart noClick p00 p00 (by decide)).1⟩

/-- Reduction of `revealStepWith` in the safe zero-count case. -/
theorem revealStepWith_safe_zero (ds : List (Int × Int)) (s : GameState) (row col : Int)
    (hb : inBoundsI row col)
    (hflag : (s.board (posOfI row col hb)).flagged = false)
    (hrev : (s.board (posOfI row col hb)).revealed = false)
    (hm : (s.board (posOfI row col hb)).hasMine = false)
    (hz : (s.board (posOfI row col hb)).nearbyMines = 0) :
    revealStepWith ds s row col =
      { s with board := RevealEmptyGo ds 82 (updateCell s.board (posOfI row col hb)
          fun cl => { cl with revealed := true }) row col } := by
  unfold revealStepWith
  rw [dif_pos hb]
  simp only
  rw [if_pos ⟨hflag, hrev⟩,
    if_neg (by rw [updateCell_reveal_hasMine]; simp [hm]),
    if_pos (by rw [updateCell_reveal_nearby]; exact hz)]

theorem bool_eq_of_iff {a b : Bool} (h : a = true ↔ b = true) : a = b := by
  cases a <;> cases b <;> simp_all

/-- **C1** (functional_correctness): in any reachable Playing state,
revealing a safe zero-count cell reveals exactly the cells previously
revealed together with the spec's region: the non-mine cells reachable
from the seed through chains of zero-safe cells (the connected zero region
plus its ring of numbered border cells, `cascadeReach`).  No mined cell is
revealed by the cascade, and the final state does not depend on the order
in which the 3x3 neighbour offsets are visited. -/
theorem cascade_reveals_exact_connected_region (s : GameState) (hre : Reachable s)
    (hgo : s.gameOver = false) (hw : s.win = false) (row col : Int) (hb : inBoundsI row col)
    (hflag : (s.board (posOfI row col hb)).flagged = false)
    (hrev : (s.board (posOfI row col hb)).revealed = false)
    (hmine : (s.board (posOfI row col hb)).hasMine = false)
    (hzero : (s.board (posOfI row col hb)).nearbyMines = 0) :
    (∀ ds : List (Int × Int), (∀ d : Int × Int, d ∈ ds ↔ d ∈ offsets) →
      ∀ q : Pos,
        (((RevealWith ds s row col).board q).revealed = true ↔
          ((s.board q).revealed = true ∨
            ((s.board q).hasMine = false ∧ cascadeReach s.board (posOfI row col hb) q))) ∧
        ((s.board q).hasMine = true →
          ((RevealWith ds s row col).board q).revealed = (s.board q).revealed)) ∧
    (∀ ds1 ds2 : List (Int × Int), (∀ d : Int × Int, d ∈ ds1 ↔ d ∈ offsets) →
      (∀ d : Int × Int, d ∈ ds2 ↔ d ∈ offsets) →
      RevealWith ds1 s row col = RevealWith ds2 s row col) := by
  have hcl : zeroClosed s.board := Reachable_zeroClosed hre
  have hend : (s.gameOver || s.win) = false := by rw [hgo, hw]; rfl
  have hred : ∀ ds : List (Int × Int), RevealWith ds s row col
      = { s with board := RevealEmptyGo ds 82 (updateCell s.board (posOfI row col hb)
          fun cl => { cl with revealed := true }) row col } := by
    intro ds
    simp only [RevealWith]
    rw [if_neg (by simp [hend]),
      revealStepWith_safe_zero ds s row col hb hflag hrev hmine hzero]
  constructor
  · intro ds hds q
    have hchar := cascade_exact s.board row col hb hrev hmine hzero hcl ds hds
    rw [hred ds]
    exact ⟨hchar.1 q, fun hq => hchar.2.2.mine_revealed_eq q hq⟩
  · intro ds1 ds2 h1 h2
    have hch1 := cascade_exact s.board row col hb hrev hmine hzero hcl ds1 h1
    have hch2 := cascade_exact s.board row col hb hrev hmine hzero hcl ds2 h2
    rw [hred ds1, hred ds2]
    have hbeq : RevealEmptyGo ds1 82 (updateCell s.board (posOfI row col hb)
          fun cl => { cl with revealed := true }) row col
        = RevealEmptyGo ds2 82 (updateCell s.board (posOfI row col hb)
          fun cl => { cl with revealed := true }) row col := by
      funext x
      apply Cell.ext
      · exact bool_eq_of_iff ((hch1.1 x).trans (hch2.1 x).symm)
      · rw [hch1.2.2.hasMine_eq x, hch2.2.2.hasMine_eq x]
      · rw [hch1.2.2.flagged_eq x, hch2.2.2.flagged_eq x]
      · rw [hch1.2.2.nearbyMines_eq x, hch2.2.2.nearbyMines_eq x]
    rw [hbeq]

/-- Witness for C1: in the concrete game, the characterization holds for
revealing the zero cell (0,0), instantiated at the C visitation order and
at the flagged border cell (1,1). -/
theorem cascade_reveals_exact_connected_region_witness :
    Reachable cexStart ∧ inBoundsI 0 0 ∧
    ((cexStart.board (posOfI 0 0 (by decide))).nearbyMines = 0) ∧
    (((RevealWith offsets cexStart 0 0).board p11).revealed = true ↔
      ((cexStart.board p11).revealed = true ∨
        ((cexStart.board p11).hasMine = false ∧
          cascadeReach cexStart.board (posOfI 0 0 (by decide)) p11))) :=
  ⟨⟨cexRands, [], rfl⟩, by decide, by decide,
   ((cascade_reveals_exact_connected_region cexStart ⟨cexRands, [], rfl⟩ rfl rfl 0 0
      (by decide) (by decide) (by decide) (by decide) (by decide)).1 offsets
      (fun _ => Iff.rfl) p11).1⟩

/-- Claim **C2** as stated is FALSE on the code: the cascade (`RevealEmpty`)
checks only `!revealed && !hasMine` — not `flagged` — so a flagged cell can
transition from unrevealed to revealed while its flag is set.  Concretely:
flag (1,1), then reveal the zero cell (0,0); the cascade reveals (1,1) even
though it is flagged at that moment.  This closed computation exhibits the
reachable state and the violating transition. -/
theorem flagged_cell_revealed_by_cascade_counterexample :
    Reachable cexFlagged ∧
    (cexFlagged.board p11).revealed = false ∧
    (cexFlagged.board p11).flagged = true ∧
    ((frame cexFlagged iReveal00).board p11).revealed = true ∧
    ((frame cexFlagged iReveal00).board p11).flagged = true :=
  ⟨⟨cexRands, [iFlag11], rfl⟩, by decide, by decide, by decide, by decide⟩

/-- **C2 amended**: a cell transitions from unrevealed to revealed with its
`flagged` field still true only when it is not the cell the player clicked
(i.e. only through the cascade of a neighbouring reveal, or through
`RevealAllMines`); the directly clicked cell is revealed only if it was
unflagged — a flagged clicked cell leaves the state unchanged. -/
theorem reveal_respects_flags_amended (s : GameState) (i : Input) :
    (∀ (row col : Int) (hb : inBoundsI row col),
      (s.board (posOfI row col hb)).flagged = true → Reveal s row col = s) ∧
    (∀ q : Pos, (s.board q).flagged = true → (s.board q).revealed = false →
      ((frame s i).board q).revealed = true →
      ¬ ((q.1.val : Int) = i.pos.1 ∧ (q.2.val : Int) = i.pos.2)) := by
  constructor
  · intro row col hb hf
    by_cases hend : (s.gameOver || s.win) = true
    · exact Reveal_of_ended s row col hend
    · have hend' : (s.gameOver || s.win) = false := by
        cases hx : (s.gameOver || s.win)
        · rfl
        · exact absurd hx hend
      rw [Reveal_playing s row col hend']
      exact revealStep_of_flagged s row col hb hf
  · intro q hf hr hrev'
    rintro ⟨hq1, hq2⟩
    by_cases hend : (s.gameOver || s.win) = true
    · rw [frame_of_ended s i hend] at hrev'
      rw [hr] at hrev'
      cases hrev'
    · have hend' : (s.gameOver || s.win) = false := by
        cases hx : (s.gameOver || s.win)
        · rfl
        · exact absurd hx hend
      rw [frame_not_ended s i hend'] at hrev'
      have hbq : inBoundsI i.pos.1 i.pos.2 := by
        have := pos_inBounds q
        rw [hq1, hq2] at this
        exact this
      have hqpos : q = posOfI i.pos.1 i.pos.2 hbq := by
        rw [Eq.comm, posOfI_eq_iff]
        exact ⟨hq1, hq2⟩
      set s1 := if i.left then revealStep s i.pos.1 i.pos.2 else s with hs1
      have hs1s : s1 = s := by
        rw [hs1]
        split
        · exact revealStep_of_flagged s _ _ hbq (by rw [← hqpos]; exact hf)
        · rfl
      rw [winStep_board] at hrev'
      have hstep : ((if i.right then flagStep s1 i.pos.1 i.pos.2 else s1).board q).revealed
          = (s1.board q).revealed := by
        split
        · exact flagStep_revealed s1 _ _ q
        · rfl
      rw [hstep, hs1s, hr] at hrev'
      cases hrev'

/-- Witness for the amended C2: the flagged cell (1,1) of the concrete
game is left untouched by a direct `Reveal` on it. -/
theorem reveal_respects_flags_amended_witness :
    (cexFlagged.board p11).flagged = true ∧ Reveal cexFlagged 1 1 = cexFlagged :=
  ⟨by decide,
   (reveal_respects_flags_amended cexFlagged iReveal00).1 1 1 (by decide) (by decide)⟩

end Minesweeper
